import Mathlib

/-!
Verification of the session-log classification and safe-deletion pipeline:
the classifier (scan.py) and the deleter (delete.py) of the
clean-conversations skill. The scripts are embedded shallowly: JSON values
are an inductive type, the filesystem is an explicit state, Python dict and
string primitives are modelled by executable functions, and code paths that
would raise an uncaught Python exception return an explicit error value.
-/

namespace CleanConv

/-- JSON values as produced by json.loads. Objects are association lists of
string keys; dicts coming out of json.loads have unique keys, and every dict
operation used below reads and updates the first occurrence of a key, which
coincides with dict semantics on such values. Numbers are modelled as
integers; no analysed code path depends on float payloads. -/
inductive JVal where
  | null : JVal
  | bool : Bool → JVal
  | num : Int → JVal
  | str : String → JVal
  | arr : List JVal → JVal
  | obj : List (String × JVal) → JVal

/-- Kinds of uncaught Python exception the scripts can raise: attribute
access on a value without that attribute (AttributeError), an operation on
an unsupported type (TypeError), or a missing dict key (KeyError). -/
inductive PyErr where
  | attributeError : PyErr
  | typeError : PyErr
  | keyError : PyErr
deriving DecidableEq, Repr

instance {ε α : Type} [DecidableEq ε] [DecidableEq α] : DecidableEq (Except ε α) := fun a b =>
  match a, b with
  | .ok x, .ok y =>
    if h : x = y then isTrue (by rw [h]) else isFalse fun hc => h (Except.ok.inj hc)
  | .error x, .error y =>
    if h : x = y then isTrue (by rw [h]) else isFalse fun hc => h (Except.error.inj hc)
  | .ok _, .error _ => isFalse fun hc => Except.noConfusion hc
  | .error _, .ok _ => isFalse fun hc => Except.noConfusion hc

/-- Python truthiness of a JSON value. -/
def JVal.truthy : JVal → Bool
  | .null => false
  | .bool b => b
  | .num n => n != 0
  | .str s => !s.isEmpty
  | .arr xs => !xs.isEmpty
  | .obj kvs => !kvs.isEmpty

/-- Equality test of a value against a Python string literal, as in
comparisons such as msg_type == "assistant". -/
def JVal.isStrEq : JVal → String → Bool
  | .str s, t => s == t
  | _, _ => false

/-- Python d.get(key, default): first-occurrence lookup on dicts, and an
AttributeError on any non-dict value (strings, numbers, lists and None have
no .get method). -/
def pyGet (v : JVal) (k : String) (d : JVal) : Except PyErr JVal :=
  match v with
  | .obj kvs => .ok ((List.lookup k kvs).getD d)
  | _ => .error .attributeError

/-- Whether pat occurs as a contiguous substring of s, as used for
re.search with a literal pattern and for Python substring membership. -/
def containsSub (pat : List Char) : List Char → Bool
  | [] => pat.isEmpty
  | c :: rest => pat.isPrefixOf (c :: rest) || containsSub pat rest

/-- Command names enumerated by LOCAL_CMD_RE (scan.py line 8). -/
def localCommands : List String :=
  ["clear", "exit", "compact", "resume", "init", "login", "logout", "status",
   "config", "help", "model", "cost", "memory", "doctor", "bug", "review",
   "terminal-setup", "listen", "mcp", "release-notes", "permissions",
   "approved-tools"]

/-- LOCAL_CMD_RE.search(content): the content contains command-name tags
wrapping one of the enumerated command names, anywhere in the string. -/
def localCmdSearch (s : String) : Bool :=
  localCommands.any fun c =>
    containsSub ("<command-name>/" ++ c ++ "</command-name>").data s.data

/-- LOCAL_CMD_STDOUT_RE.match(content) with re.DOTALL: the whole content is
a local-command-stdout wrapper. The final dollar anchor of the pattern also
accepts exactly one trailing newline. -/
def stdoutMatch (s : String) : Bool :=
  let pre := "<local-command-stdout>".data
  let post := "</local-command-stdout>".data
  pre.isPrefixOf s.data &&
    (post.isSuffixOf (s.data.drop pre.length) ||
      (post ++ ['\n']).isSuffixOf (s.data.drop pre.length))

/-- Characters removed by Python str.strip() with no arguments, for the
character range appearing in these logs. -/
def pyIsSpace (c : Char) : Bool :=
  c == ' ' || c == '\t' || c == '\n' || c == '\r' || c == '\x0b' || c == '\x0c'

/-- Python str.strip(). -/
def pyStrip (s : String) : String :=
  ⟨((s.data.dropWhile pyIsSpace).reverse.dropWhile pyIsSpace).reverse⟩

/-- Fuel-indexed worker for Python str.replace: replaces non-overlapping
occurrences left to right. Each step consumes at least one character of the
input, so fuel equal to the input length never runs out. -/
def replCharsFuel (pat rep : List Char) : Nat → List Char → List Char
  | _, [] => []
  | 0, s => s
  | fuel + 1, c :: rest =>
    if !pat.isEmpty && pat.isPrefixOf (c :: rest) then
      rep ++ replCharsFuel pat rep fuel (rest.drop (pat.length - 1))
    else c :: replCharsFuel pat rep fuel rest

/-- Python s.replace(pat, rep) for a nonempty pattern. -/
def pyReplace (s pat rep : String) : String :=
  ⟨replCharsFuel pat.data rep.data s.data.length s.data⟩

/-- Session identifier recorded for a wasteful file:
fname.replace(".jsonl", "") (scan.py line 84). Python replace removes every
occurrence of ".jsonl" in the name, not only a trailing extension. -/
def sessionIdOf (fname : String) : String := pyReplace fname ".jsonl" ""

/-- Structural event types skipped by the classifier (scan.py line 43). -/
def structuralTypes : List String :=
  ["file-history-snapshot", "progress", "summary", "system", "queue-operation",
   "custom-title"]

/-- Per-event step of scan.py lines 40-78. Returns true when the event
establishes real content (has_real_content = True followed by break), false
when the loop merely continues, and an error when the Python code would
raise an uncaught exception: .get on a non-dict line or message value, or
re.search over a content value that is neither a list nor a string. -/
def classifyEvent (ev : JVal) : Except PyErr Bool :=
  match pyGet ev "type" (.str "") with
  | .error e => .error e
  | .ok msgType =>
    if structuralTypes.any (fun t => msgType.isStrEq t) then .ok false
    else if msgType.isStrEq "assistant" then .ok true
    else if msgType.isStrEq "user" then
      match pyGet ev "isMeta" .null with
      | .error e => .error e
      | .ok meta =>
        if meta.truthy then .ok false
        else
          match pyGet ev "message" (.obj []) with
          | .error e => .error e
          | .ok msg =>
            match pyGet msg "content" (.str "") with
            | .error e => .error e
            | .ok content =>
              match content with
              | .arr _ => .ok true
              | .str s =>
                if localCmdSearch s then .ok false
                else if stdoutMatch s then .ok false
                else if (pyStrip s).isEmpty then .ok false
                else .ok true
              | _ => .error .typeError
    else .ok false

/-- Scan of one session file body (scan.py lines 31-78). Each element is
the parse result of one line; none stands for a blank or JSON-undecodable
line, both of which the loop skips. Returns the final has_real_content, or
the first uncaught exception. -/
def classifyLines : List (Option JVal) → Except PyErr Bool
  | [] => .ok false
  | none :: rest => classifyLines rest
  | some ev :: rest =>
    match classifyEvent ev with
    | .error e => .error e
    | .ok true => .ok true
    | .ok false => classifyLines rest

/-- One directory entry of a project directory as seen by os.listdir: its
name, whether opening and reading it as a text file succeeds (false covers
the IOError and OSError cases of scan.py line 80, e.g. a permission failure
or a directory bearing a .jsonl name), and the per-line parse results of its
contents. -/
structure SessionFile where
  name : String
  readable : Bool
  lines : List (Option JVal)

/-- Loop of scan.py lines 25-85 over the .jsonl entries of one project:
unreadable files are skipped by the except clause, each wasteful file
contributes fname.replace(".jsonl", "") to the wasteful list in listing
order, and an uncaught exception aborts the whole scan. -/
def processFiles : List SessionFile → Except PyErr (List String)
  | [] => .ok []
  | f :: rest =>
    if !f.readable then processFiles rest
    else
      match classifyLines f.lines with
      | .error e => .error e
      | .ok true => processFiles rest
      | .ok false =>
        match processFiles rest with
        | .error e => .error e
        | .ok ids => .ok (sessionIdOf f.name :: ids)

/-- Value stored in the report for one project (scan.py lines 88-92). -/
structure ProjectResult where
  total : Nat
  wasteful : Nat
  session_ids : List String
deriving DecidableEq, Repr

/-- Python s.endswith(suffix). -/
def pyEndsWith (s suffix : String) : Bool := suffix.data.isSuffixOf s.data

/-- Per-project body of scan.py lines 14-92: select the .jsonl entries of
the listing, skip the project when there are none, classify every one of
them, and include the project in the report only when the wasteful list is
nonempty. total counts every discovered .jsonl entry. -/
def processProject (files : List SessionFile) : Except PyErr (Option ProjectResult) :=
  let jsonlFiles := files.filter fun f => pyEndsWith f.name ".jsonl"
  if jsonlFiles.isEmpty then .ok none
  else
    match processFiles jsonlFiles with
    | .error e => .error e
    | .ok ids =>
      .ok (if ids.isEmpty then none
           else some { total := jsonlFiles.length, wasteful := ids.length, session_ids := ids })

/-- One entry of the base directory listing: a candidate project directory
(entries with isDir false are skipped by the isdir check of scan.py line 15)
together with its own directory listing in listdir order. -/
structure DirEntry where
  name : String
  isDir : Bool
  files : List SessionFile

/-- Lexicographic comparison of char lists by code point, matching how
Python compares strings in sorted(). -/
def charListLe : List Char → List Char → Bool
  | [], _ => true
  | _ :: _, [] => false
  | a :: as, b :: bs =>
    if a.toNat < b.toNat then true
    else if b.toNat < a.toNat then false
    else charListLe as bs

/-- Python string comparison a <= b by code points. -/
def strLe (a b : String) : Bool := charListLe a.data b.data

/-- Ordering of base directory entries by name, embedding sorted() of
scan.py line 13. -/
def nameLe (a b : DirEntry) : Prop := strLe a.name b.name = true

instance : DecidableRel nameLe := fun x y => inferInstanceAs (Decidable (strLe x.name y.name = true))

/-- sorted(os.listdir(base)): Python sorted is the unique stable sort for
the comparator, realised here by insertion sort. -/
def sortByName (entries : List DirEntry) : List DirEntry :=
  entries.insertionSort nameLe

/-- Loop of scan.py lines 13-92 over the sorted base listing, accumulating
the report in iteration order. -/
def scanGo : List DirEntry → Except PyErr (List (String × ProjectResult))
  | [] => .ok []
  | e :: rest =>
    if !e.isDir then scanGo rest
    else
      match processProject e.files with
      | .error err => .error err
      | .ok none => scanGo rest
      | .ok (some pr) =>
        match scanGo rest with
        | .error err => .error err
        | .ok acc => .ok ((e.name, pr) :: acc)

/-- The classifier over a base listing given in directory order. -/
def scanTree (entries : List DirEntry) : Except PyErr (List (String × ProjectResult)) :=
  scanGo (sortByName entries)

/-- Top-level classifier output: the missing-base error object or the
report mapping in insertion order. -/
inductive ScanOutput where
  | noBase : ScanOutput
  | report : List (String × ProjectResult) → ScanOutput
deriving DecidableEq, Repr

/-- scan.py end to end, including the missing-base early exit of
lines 3-6. -/
def scanMain (baseExists : Bool) (entries : List DirEntry) : Except PyErr ScanOutput :=
  if !baseExists then .ok .noBase
  else
    match scanTree entries with
    | .error e => .error e
    | .ok r => .ok (.report r)

/-- Lowercase hexadecimal digit used by json escape sequences. -/
def hexDigit (n : Nat) : Char :=
  if n < 10 then Char.ofNat (48 + n) else Char.ofNat (87 + n)

/-- Four hexadecimal digits of a code unit. -/
def hex4 (n : Nat) : List Char :=
  [hexDigit (n / 4096 % 16), hexDigit (n / 256 % 16), hexDigit (n / 16 % 16),
   hexDigit (n % 16)]

/-- Escaping of one character by json.dumps with its default
ensure_ascii=True. -/
def escChar (c : Char) : List Char :=
  if c == '"' then ['\\', '"']
  else if c == '\\' then ['\\', '\\']
  else if c == '\n' then ['\\', 'n']
  else if c == '\t' then ['\\', 't']
  else if c == '\r' then ['\\', 'r']
  else if c.toNat == 8 then ['\\', 'b']
  else if c.toNat == 12 then ['\\', 'f']
  else if c.toNat < 32 || c.toNat > 126 then
    if c.toNat < 65536 then '\\' :: 'u' :: hex4 c.toNat
    else
      let v := c.toNat - 65536
      ('\\' :: 'u' :: hex4 (55296 + v / 1024)) ++ ('\\' :: 'u' :: hex4 (56320 + v % 1024))
  else [c]

/-- json.dumps of a string value. -/
def jsonStr (s : String) : String :=
  "\"" ++ ⟨(s.data.map escChar).flatten⟩ ++ "\""

/-- Comma-space separator of json.dumps default formatting. -/
def joinComma : List String → String
  | [] => ""
  | [s] => s
  | s :: rest => s ++ ", " ++ joinComma rest

/-- json.dumps of one project value of the report. -/
def dumpsProject (pr : ProjectResult) : String :=
  "\x7b\"total\": " ++ toString pr.total ++ ", \"wasteful\": " ++ toString pr.wasteful ++
    ", \"session_ids\": [" ++ joinComma (pr.session_ids.map jsonStr) ++ "]\x7d"

/-- json.dumps of the whole report in dict insertion order. -/
def dumpsReport (r : List (String × ProjectResult)) : String :=
  "\x7b" ++ joinComma (r.map fun pr => jsonStr pr.1 ++ ": " ++ dumpsProject pr.2) ++ "\x7d"

/-- Bytes printed by scan.py to standard output, when it terminates
normally; an uncaught exception prints no report. -/
def printedScan : Except PyErr ScanOutput → Option String
  | .ok .noBase => some "\x7b\"error\": \"No projects directory found\"\x7d"
  | .ok (.report r) => some (dumpsReport r)
  | .error _ => none

/-- Filesystem state seen by delete.py. A path maps to some content when a
file exists there; the content is the json.load parse result, with none
standing for a file whose open or parse fails (delete.py lines 16-20 treat
both alike). Directories are a separate predicate, matching os.path.isdir
versus os.path.isfile. -/
structure FS where
  files : String → Option (Option JVal)
  dirs : String → Bool

/-- os.path.join for the relative names the scripts build. -/
def pjoin (a b : String) : String := a ++ "/" ++ b

/-- Failure strings accumulated by delete.py, abstracted by kind and path:
a failed os.remove of a log file, a failed shutil.rmtree of a companion
directory, or a failed write of an index file. The Python strings embed the
same path, so this abstraction keeps each entry's identity. -/
inductive DelErr where
  | fileDel : String → DelErr
  | dirDel : String → DelErr
  | indexWrite : String → DelErr
deriving DecidableEq, Repr

/-- Environment oracle deciding which filesystem mutations raise OSError or
IOError, modelling conditions such as permission failures. -/
structure Oracle where
  removeFails : String → Bool
  rmtreeFails : String → Bool
  writeFails : String → Bool

/-- The oracle of a run in which every filesystem operation succeeds. -/
def noFailOracle : Oracle := ⟨fun _ => false, fun _ => false, fun _ => false⟩

/-- Oracle failing exactly one os.remove call, at the given path. -/
def singleRemoveFailOracle (p : String) : Oracle :=
  ⟨fun q => q == p, fun _ => false, fun _ => false⟩

/-- Running state of delete.py: the filesystem, the deleted counter and the
errors list. -/
structure DelState where
  fs : FS
  deleted : Nat
  errors : List DelErr

/-- os.remove. -/
def removeFile (fs : FS) (p : String) : FS :=
  { fs with files := fun q => if q = p then none else fs.files q }

/-- Writing a file (open for write plus json.dump). -/
def writeFile (fs : FS) (p : String) (c : Option JVal) : FS :=
  { fs with files := fun q => if q = p then some c else fs.files q }

/-- Whether path p lies strictly inside directory d. -/
def underDir (d p : String) : Bool := (d ++ "/").data.isPrefixOf p.data

/-- shutil.rmtree: removes the directory, every directory below it and
every file below it. -/
def rmtree (fs : FS) (d : String) : FS :=
  { files := fun q => if underDir d q then none else fs.files q,
    dirs := fun q => if q = d || underDir d q then false else fs.dirs q }

/-- os.path.isfile. -/
def isFile (fs : FS) (p : String) : Bool := (fs.files p).isSome

/-- Loading sessions-index.json (delete.py lines 13-20): none when the file
is absent, unreadable or not valid JSON. -/
def loadIndex (fs : FS) (ip : String) : Option JVal :=
  match fs.files ip with
  | some (some v) => some v
  | some none => none
  | none => none

/-- Python membership test key in value, as in "entries" in index_data:
key lookup on dicts, element equality on lists, substring test on strings,
TypeError on non-container values. -/
def pyInTest (k : String) (v : JVal) : Except PyErr Bool :=
  match v with
  | .obj kvs => .ok (kvs.any fun kv => kv.1 == k)
  | .arr xs => .ok (xs.any fun x => x.isStrEq k)
  | .str s => .ok (containsSub k.data s.data)
  | _ => .error .typeError

/-- Python subscript value[key] with a string key: dict lookup (KeyError
when absent), TypeError on any other value. -/
def pySubscript (v : JVal) (k : String) : Except PyErr JVal :=
  match v with
  | .obj kvs =>
    match List.lookup k kvs with
    | some x => .ok x
    | none => .error .keyError
  | _ => .error .typeError

/-- Python iteration over a value: a list yields its elements, a string its
one-character substrings, a dict its keys; other values raise TypeError. -/
def pyIterate (v : JVal) : Except PyErr (List JVal) :=
  match v with
  | .arr xs => .ok xs
  | .str s => .ok (s.data.map fun c => JVal.str ⟨[c]⟩)
  | .obj kvs => .ok (kvs.map fun kv => JVal.str kv.1)
  | _ => .error .typeError

/-- Filter predicate of the index comprehension (delete.py line 44):
e.get("sessionId") != session_id. -/
def entryKeep (sid : String) (e : JVal) : Except PyErr Bool :=
  match pyGet e "sessionId" .null with
  | .error err => .error err
  | .ok v => .ok (!v.isStrEq sid)

/-- The comprehension of delete.py lines 42-45 over the iterated entries
value. -/
def filterList (sid : String) : List JVal → Except PyErr (List JVal)
  | [] => .ok []
  | e :: rest =>
    match entryKeep sid e with
    | .error err => .error err
    | .ok k =>
      match filterList sid rest with
      | .error err => .error err
      | .ok tail => .ok (if k then e :: tail else tail)

/-- Python dict assignment d[k] = v on an association list: replaces the
value at the first occurrence of the key, keeping its position, or appends
the key. On unique-key lists this is exactly dict assignment. -/
def setKey (kvs : List (String × JVal)) (k : String) (v : JVal) : List (String × JVal) :=
  match kvs with
  | [] => [(k, v)]
  | kv :: rest => if kv.1 == k then (k, v) :: rest else kv :: setKey rest k v

/-- The statement index_data["entries"] = [e for e in index_data["entries"]
if e.get("sessionId") != session_id]: evaluate the subscript, iterate it,
filter, then assign. Any step can raise. -/
def filterIndex (sid : String) (v : JVal) : Except PyErr JVal :=
  match pySubscript v "entries" with
  | .error err => .error err
  | .ok ev =>
    match pyIterate ev with
    | .error err => .error err
    | .ok es =>
      match filterList sid es with
      | .error err => .error err
      | .ok es' =>
        match v with
        | .obj kvs => .ok (.obj (setKey kvs "entries" (.arr es')))
        | _ => .error .typeError

/-- delete.py lines 23-30: delete the log file when present, counting a
success and recording a failure. -/
def tryRemove (o : Oracle) (st : DelState) (p : String) : DelState :=
  if isFile st.fs p then
    if o.removeFails p then { st with errors := st.errors ++ [DelErr.fileDel p] }
    else { st with fs := removeFile st.fs p, deleted := st.deleted + 1 }
  else st

/-- delete.py lines 32-38: recursively delete the companion directory when
present, recording a failure. -/
def tryRmtree (o : Oracle) (st : DelState) (d : String) : DelState :=
  if st.fs.dirs d then
    if o.rmtreeFails d then { st with errors := st.errors ++ [DelErr.dirDel d] }
    else { st with fs := rmtree st.fs d }
  else st

/-- delete.py lines 40-45: the guarded in-memory index filtering, returning
the updated in-memory index and the uncaught exception if one is raised (in
which case the in-memory index is left as it was, since the comprehension
result is never assigned). -/
def indexStep (sid : String) (idx : Option JVal) : Option JVal × Option PyErr :=
  match idx with
  | none => (none, none)
  | some v =>
    if v.truthy then
      match pyInTest "entries" v with
      | .error e => (some v, some e)
      | .ok true =>
        match filterIndex sid v with
        | .error e => (some v, some e)
        | .ok v' => (some v', none)
      | .ok false => (some v, none)
    else (some v, none)

/-- Per-session body of delete.py lines 22-45: conditional log-file
removal, conditional companion rmtree, then the guarded in-memory index
filtering. Returns the updated state, the updated in-memory index and the
uncaught exception if one is raised. -/
def delSession (o : Oracle) (projPath : String) (st : DelState) (idx : Option JVal)
    (sid : String) : DelState × Option JVal × Option PyErr :=
  let st2 := tryRmtree o (tryRemove o st (pjoin projPath (sid ++ ".jsonl")))
    (pjoin projPath sid)
  ((st2, indexStep sid idx) : DelState × Option JVal × Option PyErr)

/-- Loop of delete.py line 22 over the session ids of one project,
stopping at the first uncaught exception. -/
def delSessions (o : Oracle) (projPath : String) (st : DelState) (idx : Option JVal) :
    List String → DelState × Option JVal × Option PyErr
  | [] => (st, idx, none)
  | sid :: rest =>
    match delSession o projPath st idx sid with
    | (st', idx', none) => delSessions o projPath st' idx' rest
    | (st', idx', some e) => (st', idx', some e)

/-- Per-project body of delete.py lines 9-53: load the index if present and
parseable, process every session id, then write the cleaned index back when
one was loaded, recording a write failure as an error. -/
def delProject (o : Oracle) (base : String) (st : DelState) (proj : String × List String) :
    DelState × Option PyErr :=
  let projPath := pjoin base proj.1
  let indexPath := pjoin projPath "sessions-index.json"
  let idx0 := loadIndex st.fs indexPath
  match delSessions o projPath st idx0 proj.2 with
  | (st1, _, some e) => (st1, some e)
  | (st1, idx, none) =>
    match idx with
    | none => (st1, none)
    | some v =>
      if o.writeFails indexPath then
        ({ st1 with errors := st1.errors ++ [DelErr.indexWrite indexPath] }, none)
      else
        ({ st1 with fs := writeFile st1.fs indexPath (some v) }, none)

/-- Loop of delete.py line 9 over the report projects in insertion order. -/
def delGo (o : Oracle) (base : String) (st : DelState) :
    List (String × List String) → DelState × Option PyErr
  | [] => (st, none)
  | p :: rest =>
    match delProject o base st p with
    | (st', none) => delGo o base st' rest
    | (st', some e) => (st', some e)

/-- delete.py end to end over a report given as a mapping from project name
to its session_ids list (the only report field the script reads), starting
from the given filesystem. The second component is the uncaught exception if
the process crashed; the final print happens only when it is none. -/
def runDeleter (o : Oracle) (base : String) (report : List (String × List String))
    (fs0 : FS) : DelState × Option PyErr :=
  delGo o base { fs := fs0, deleted := 0, errors := [] } report

/-- Path of the log file the deleter targets for one listed session. -/
def jsonlPathOf (base proj sid : String) : String :=
  pjoin (pjoin base proj) (sid ++ ".jsonl")

/-- Path of the companion directory the deleter targets for one listed
session. -/
def companionOf (base proj sid : String) : String := pjoin (pjoin base proj) sid

/-- Path of a project's sessions-index.json. -/
def indexPathOf (base proj : String) : String :=
  pjoin (pjoin base proj) "sessions-index.json"

/-- The entries array of an index document in the documented shape: the
value of the "entries" key of a JSON object, when that value is an array.
Any other shape carries no entries. -/
def entriesOf (v : JVal) : List JVal :=
  match v with
  | .obj kvs =>
    match List.lookup "entries" kvs with
    | some (.arr es) => es
    | _ => []
  | _ => []

/-- An index value has no entry recorded for the given session id. -/
def NoEntryFor (v : JVal) (sid : String) : Prop :=
  ∀ e ∈ entriesOf v, entryKeep sid e ≠ .ok false

/-- Concrete filesystem built from a finite listing, used to instantiate
theorems on explicit states. -/
def mkFS (fl : List (String × Option JVal)) (dl : List String) : FS :=
  ⟨fun p => List.lookup p fl, fun d => dl.contains d⟩

/-- A parsed event whose type field resolves to "assistant". -/
def isAssistantEv (ev : JVal) : Bool :=
  match pyGet ev "type" (.str "") with
  | .ok v => v.isStrEq "assistant"
  | .error _ => false

/-- A parsed event whose type field resolves to one of the structural
types. -/
def isStructuralEv (ev : JVal) : Bool :=
  match pyGet ev "type" (.str "") with
  | .ok v => structuralTypes.any fun t => v.isStrEq t
  | .error _ => false

/-- A user event flagged as meta: its type field resolves to "user" and its
isMeta field is truthy. -/
def isMetaUserEv (ev : JVal) : Bool :=
  match pyGet ev "type" (.str ""), pyGet ev "isMeta" .null with
  | .ok v, .ok m => v.isStrEq "user" && m.truthy
  | _, _ => false

/-- A user event whose string content matches the local slash-command
pattern. -/
def isLocalCmdUserEv (ev : JVal) : Bool :=
  match pyGet ev "type" (.str "") with
  | .error _ => false
  | .ok tv =>
    tv.isStrEq "user" &&
      match pyGet ev "message" (.obj []) with
      | .error _ => false
      | .ok mv =>
        match pyGet mv "content" (.str "") with
        | .ok (.str s) => localCmdSearch s
        | _ => false

theorem pyGet_ok_obj {v : JVal} {k : String} {d x : JVal} (h : pyGet v k d = .ok x) :
    ∃ kvs, v = .obj kvs := by
  cases v with
  | obj kvs => exact ⟨kvs, rfl⟩
  | null => simp [pyGet] at h
  | bool b => simp [pyGet] at h
  | num n => simp [pyGet] at h
  | str s => simp [pyGet] at h
  | arr xs => simp [pyGet] at h

theorem isStrEq_true {v : JVal} {t : String} (h : v.isStrEq t = true) : v = .str t := by
  cases v <;> simp [JVal.isStrEq] at h
  simp [h]

theorem classifyEvent_assistant {ev : JVal} (h : isAssistantEv ev = true) :
    classifyEvent ev = .ok true := by
  unfold isAssistantEv at h
  cases hg : pyGet ev "type" (.str "") with
  | error e => rw [hg] at h; cases h
  | ok v =>
    rw [hg] at h
    have hv := isStrEq_true h
    subst hv
    unfold classifyEvent
    rw [hg]
    rfl

theorem classifyEvent_structural {ev : JVal} (h : isStructuralEv ev = true) :
    classifyEvent ev = .ok false := by
  unfold isStructuralEv at h
  cases hg : pyGet ev "type" (.str "") with
  | error e => rw [hg] at h; cases h
  | ok v =>
    rw [hg] at h
    have h' : (structuralTypes.any fun t => v.isStrEq t) = true := h
    unfold classifyEvent
    simp only [hg, h', if_true]

theorem classifyEvent_metaUser {ev : JVal} (h : isMetaUserEv ev = true) :
    classifyEvent ev = .ok false := by
  unfold isMetaUserEv at h
  cases hg : pyGet ev "type" (.str "") with
  | error e => rw [hg] at h; cases h
  | ok v =>
    cases hm : pyGet ev "isMeta" .null with
    | error e => rw [hg, hm] at h; cases h
    | ok m =>
      rw [hg, hm] at h
      have hv := isStrEq_true (Bool.and_elim_left h)
      have hmt := Bool.and_elim_right h
      subst hv
      unfold classifyEvent
      rw [hg, hm]
      simp [structuralTypes, JVal.isStrEq, hmt]

theorem classifyEvent_localCmd {ev : JVal} (h : isLocalCmdUserEv ev = true) :
    classifyEvent ev = .ok false := by
  unfold isLocalCmdUserEv at h
  cases hg : pyGet ev "type" (.str "") with
  | error e => rw [hg] at h; cases h
  | ok tv =>
    simp only [hg, Bool.and_eq_true] at h
    obtain ⟨htv, h2⟩ := h
    have htv' := isStrEq_true htv
    subst htv'
    cases hmsg : pyGet ev "message" (.obj []) with
    | error e => simp [hmsg] at h2
    | ok mv =>
      simp only [hmsg] at h2
      cases hc : pyGet mv "content" (.str "") with
      | error e => simp [hc] at h2
      | ok cv =>
        simp only [hc] at h2
        cases cv with
        | str s =>
          have h2' : localCmdSearch s = true := h2
          obtain ⟨kvs, hk⟩ := pyGet_ok_obj hg
          subst hk
          unfold classifyEvent
          simp only [hg]
          have hs : (structuralTypes.any fun t => (JVal.str "user").isStrEq t) = false := rfl
          have ha : (JVal.str "user").isStrEq "assistant" = false := rfl
          have hu : (JVal.str "user").isStrEq "user" = true := rfl
          simp only [hs, ha, hu, Bool.false_eq_true, if_false, if_true]
          have hm : pyGet (JVal.obj kvs) "isMeta" .null =
              .ok ((List.lookup "isMeta" kvs).getD .null) := rfl
          simp only [hm]
          cases hmt : ((List.lookup "isMeta" kvs).getD JVal.null).truthy with
          | true => simp
          | false =>
            simp only [Bool.false_eq_true, if_false, hmsg, hc, h2', if_true]
        | null => simp at h2
        | bool b => simp at h2
        | num n => simp at h2
        | arr xs => simp at h2
        | obj kvs => simp at h2

/-- When every parsed line merely continues the loop, the file ends with
has_real_content still false. -/
theorem classifyLines_skip {lines : List (Option JVal)}
    (h : ∀ ev, some ev ∈ lines → classifyEvent ev = .ok false) :
    classifyLines lines = .ok false := by
  induction lines with
  | nil => rfl
  | cons hd tl ih =>
    cases hd with
    | none => exact ih fun ev hm => h ev (List.mem_cons_of_mem _ hm)
    | some ev =>
      have he := h ev (List.mem_cons_self _ _)
      simp only [classifyLines, he]
      exact ih fun ev' hm => h ev' (List.mem_cons_of_mem _ hm)

/-- A single readable wasteful file is recorded under its derived session
identifier. -/
theorem processFiles_singleton_wasteful {name : String} {lines : List (Option JVal)}
    (h : classifyLines lines = .ok false) :
    processFiles [⟨name, true, lines⟩] = .ok [sessionIdOf name] := by
  simp [processFiles, h]

/-- C4: for every session log file, if any parseable event in the file has
type "assistant", the classifier never marks that session wasteful: the
per-file scan cannot end with has_real_content = false (the only state in
which scan.py line 83 records the session id as wasteful), whatever the
events after the assistant one contain. -/
theorem c4_assistant_short_circuit (lines : List (Option JVal))
    (h : ∃ ev, some ev ∈ lines ∧ isAssistantEv ev = true) :
    classifyLines lines ≠ .ok false := by
  induction lines with
  | nil =>
    obtain ⟨ev, hmem, _⟩ := h
    cases hmem
  | cons hd tl ih =>
    obtain ⟨ev, hmem, hass⟩ := h
    rcases List.mem_cons.mp hmem with heq | hmem'
    · rw [← heq]
      simp only [classifyLines, classifyEvent_assistant hass]
      intro hc
      cases hc
    · cases hd with
      | none => exact ih ⟨ev, hmem', hass⟩
      | some ev' =>
        simp only [classifyLines]
        cases hc : classifyEvent ev' with
        | error e => intro hcc; cases hcc
        | ok b =>
          cases b with
          | true => intro hcc; cases hcc
          | false => exact ih ⟨ev, hmem', hass⟩

theorem c4_witness :
    classifyLines [some (JVal.obj [("type", JVal.str "assistant")]),
      some (JVal.obj [("type", JVal.str "user"),
        ("message", JVal.obj [("content", JVal.str "<command-name>/clear</command-name>")])])]
      ≠ .ok false :=
  c4_assistant_short_circuit _ ⟨_, List.mem_cons_self _ _, by decide⟩

/-- C7: every session whose only parsed events are structural events or
user events whose string content matches the local slash-command pattern is
classified wasteful, and such content never flips has_real_content: the
file scan ends in the wasteful state and the session id derived from the
file name is recorded. -/
theorem c7_local_command_wasteful (lines : List (Option JVal))
    (h : ∀ ev, some ev ∈ lines → isStructuralEv ev = true ∨ isLocalCmdUserEv ev = true) :
    classifyLines lines = .ok false ∧
      ∀ name, processFiles [⟨name, true, lines⟩] = .ok [sessionIdOf name] := by
  have hw : classifyLines lines = .ok false := by
    apply classifyLines_skip
    intro ev hm
    rcases h ev hm with hst | hlc
    · exact classifyEvent_structural hst
    · exact classifyEvent_localCmd hlc
  exact ⟨hw, fun name => processFiles_singleton_wasteful hw⟩

theorem c7_witness :
    classifyLines [some (JVal.obj [("type", JVal.str "user"),
        ("message", JVal.obj [("content", JVal.str "<command-name>/clear</command-name>")])]),
      some (JVal.obj [("type", JVal.str "summary")])] = .ok false ∧
      ∀ name, processFiles [⟨name, true,
        [some (JVal.obj [("type", JVal.str "user"),
          ("message", JVal.obj [("content", JVal.str "<command-name>/clear</command-name>")])]),
         some (JVal.obj [("type", JVal.str "summary")])]⟩] = .ok [sessionIdOf name] :=
  c7_local_command_wasteful _ (by
    intro ev hm
    rcases List.mem_cons.mp hm with h1 | h2
    · right; rw [show ev = JVal.obj [("type", JVal.str "user"),
        ("message", JVal.obj [("content", JVal.str "<command-name>/clear</command-name>")])]
        from Option.some.inj h1]
      decide
    · left
      rw [show ev = JVal.obj [("type", JVal.str "summary")] from
        Option.some.inj (List.mem_singleton.mp h2)]
      decide)

/-- C8: every session containing only user events flagged as meta plus any
number of structural-type events is classified wasteful, and the session id
derived from the file name is recorded. -/
theorem c8_meta_only_wasteful (lines : List (Option JVal))
    (h : ∀ ev, some ev ∈ lines → isStructuralEv ev = true ∨ isMetaUserEv ev = true) :
    classifyLines lines = .ok false ∧
      ∀ name, processFiles [⟨name, true, lines⟩] = .ok [sessionIdOf name] := by
  have hw : classifyLines lines = .ok false := by
    apply classifyLines_skip
    intro ev hm
    rcases h ev hm with hst | hmu
    · exact classifyEvent_structural hst
    · exact classifyEvent_metaUser hmu
  exact ⟨hw, fun name => processFiles_singleton_wasteful hw⟩

theorem c8_witness :
    classifyLines [some (JVal.obj [("type", JVal.str "user"), ("isMeta", JVal.bool true)]),
      some (JVal.obj [("type", JVal.str "file-history-snapshot")])] = .ok false ∧
      ∀ name, processFiles [⟨name, true,
        [some (JVal.obj [("type", JVal.str "user"), ("isMeta", JVal.bool true)]),
         some (JVal.obj [("type", JVal.str "file-history-snapshot")])]⟩]
        = .ok [sessionIdOf name] :=
  c8_meta_only_wasteful _ (by
    intro ev hm
    rcases List.mem_cons.mp hm with h1 | h2
    · right
      rw [show ev = JVal.obj [("type", JVal.str "user"), ("isMeta", JVal.bool true)] from
        Option.some.inj h1]
      decide
    · left
      rw [show ev = JVal.obj [("type", JVal.str "file-history-snapshot")] from
        Option.some.inj (List.mem_singleton.mp h2)]
      decide)

/-- C3 counterexample: a project containing one unreadable log file
(u.jsonl) and one wasteful log file (w.jsonl). The claim says the
unreadable file is not counted in the per-project total, which would make
the total 1; scan.py computes total = len(jsonl_files) = 2 before
classification, counting the unreadable file. -/
theorem c3_counterexample :
    scanTree [⟨"p", true, [⟨"u.jsonl", false, []⟩, ⟨"w.jsonl", true, []⟩]⟩]
      = .ok [("p", ⟨2, 1, ["w"]⟩)] ∧ (2 : Nat) ≠ 1 := by
  constructor
  · decide
  · decide

/-- C3 amended: a session log file that cannot be opened or read is
excluded from classification — it contributes nothing to the wasteful list
(dropping it from the listing leaves the computed wasteful ids unchanged) —
but it is counted in the per-project total, which counts every discovered
.jsonl entry regardless of readability. -/
theorem c3_unreadable_amended (f : SessionFile) (hr : f.readable = false)
    (hj : pyEndsWith f.name ".jsonl" = true) (l1 l2 : List SessionFile) :
    processFiles (l1 ++ f :: l2) = processFiles (l1 ++ l2) ∧
      ((l1 ++ f :: l2).filter fun g : SessionFile => pyEndsWith g.name ".jsonl").length
        = ((l1 ++ l2).filter fun g : SessionFile => pyEndsWith g.name ".jsonl").length + 1 := by
  constructor
  · induction l1 with
    | nil => simp [processFiles, hr]
    | cons a l1 ih =>
      simp only [List.cons_append, processFiles, List.append_eq]
      rw [ih]
  · simp [List.filter_append, List.filter_cons, hj]
    omega

theorem c3_witness :
    processFiles ([] ++ (⟨"u.jsonl", false, []⟩ : SessionFile) :: [⟨"w.jsonl", true, []⟩])
        = processFiles ([] ++ [⟨"w.jsonl", true, []⟩]) ∧
      (([] ++ (⟨"u.jsonl", false, []⟩ : SessionFile) :: [⟨"w.jsonl", true, []⟩]).filter
          fun g : SessionFile => pyEndsWith g.name ".jsonl").length
        = (([] ++ [(⟨"w.jsonl", true, []⟩ : SessionFile)]).filter
          fun g : SessionFile => pyEndsWith g.name ".jsonl").length + 1 :=
  c3_unreadable_amended ⟨"u.jsonl", false, []⟩ rfl (by decide) [] [⟨"w.jsonl", true, []⟩]

/-- C9 counterexample: the file a.jsonl.jsonl ends in ".jsonl" and is
classified wasteful, and the claim says the recorded identifier is the name
minus exactly the final suffix, i.e. "a.jsonl"; scan.py records
fname.replace(".jsonl", "") = "a" instead, because Python replace removes
every occurrence. -/
theorem c9_counterexample :
    processFiles [⟨"a.jsonl.jsonl", true, []⟩] = .ok ["a"] ∧ "a" ≠ "a.jsonl" := by
  constructor
  · decide
  · decide

/-- The literal character list of the log-file extension. -/
def jsonlPat : List Char := ['.', 'j', 's', 'o', 'n', 'l']

theorem jsonlPat_no_self_overlap :
    ∀ k, 1 ≤ k → k ≤ 5 → jsonlPat.drop k ≠ jsonlPat.take (6 - k) := by
  decide

theorem containsSub_cons_false {pat : List Char} {c : Char} {s : List Char}
    (h : containsSub pat (c :: s) = false) :
    pat.isPrefixOf (c :: s) = false ∧ containsSub pat s = false := by
  have h' : (pat.isPrefixOf (c :: s) || containsSub pat s) = false := h
  exact ⟨(Bool.or_eq_false_iff.mp h').1, (Bool.or_eq_false_iff.mp h').2⟩

/-- If the extension pattern does not occur inside s, it is not a prefix of
s followed by the pattern unless s is empty: the pattern cannot straddle
the boundary because it does not overlap itself. -/
theorem jsonlPat_not_prefix_straddle {c : Char} {s : List Char}
    (hno : containsSub jsonlPat (c :: s) = false) :
    jsonlPat.isPrefixOf ((c :: s) ++ jsonlPat) = false := by
  by_contra hcon
  have hpre : jsonlPat <+: ((c :: s) ++ jsonlPat) :=
    List.isPrefixOf_iff_prefix.mp (Bool.of_not_eq_false hcon)
  have hlen : jsonlPat.length = 6 := rfl
  have htake : jsonlPat = ((c :: s) ++ jsonlPat).take jsonlPat.length :=
    List.prefix_iff_eq_take.mp hpre
  by_cases hsl : 6 ≤ (c :: s).length
  · -- the whole pattern lies inside c :: s, contradicting hno
    have htake2 : ((c :: s) ++ jsonlPat).take jsonlPat.length = (c :: s).take 6 := by
      rw [hlen]
      exact List.take_append_of_le_length hsl
    have hps : jsonlPat <+: (c :: s) := by
      rw [htake, htake2]
      exact List.take_prefix _ _
    have h1 : jsonlPat.isPrefixOf (c :: s) = true := List.isPrefixOf_iff_prefix.mpr hps
    have h2 := (containsSub_cons_false hno).1
    rw [h1] at h2
    cases h2
  · -- the pattern straddles the boundary, forcing a self-overlap
    push_neg at hsl
    have hk : 1 ≤ (c :: s).length := by simp
    have htake2 : ((c :: s) ++ jsonlPat).take jsonlPat.length
        = (c :: s) ++ jsonlPat.take (6 - (c :: s).length) := by
      rw [hlen, List.take_append_eq_append_take]
      congr 1
      exact List.take_of_length_le (by omega)
    have hsplit : jsonlPat = (c :: s) ++ jsonlPat.take (6 - (c :: s).length) := by
      conv_lhs => rw [htake]
      rw [htake2]
    have hdrop : jsonlPat.drop (c :: s).length = jsonlPat.take (6 - (c :: s).length) := by
      have h2 : jsonlPat.drop (c :: s).length
          = ((c :: s) ++ jsonlPat.take (6 - (c :: s).length)).drop (c :: s).length := by
        rw [← hsplit]
      rw [h2, List.drop_left]
    exact jsonlPat_no_self_overlap (c :: s).length hk (by omega) hdrop

/-- Python replace of the extension over stem ++ ".jsonl" when the stem
contains no occurrence of the extension: only the final occurrence is
removed. Stated over the fuel-indexed worker with any sufficient fuel. -/
theorem replCharsFuel_stem_append :
    ∀ fuel (s : List Char), (s ++ jsonlPat).length ≤ fuel →
      containsSub jsonlPat s = false →
      replCharsFuel jsonlPat [] fuel (s ++ jsonlPat) = s := by
  intro fuel
  induction fuel with
  | zero =>
    intro s hle _
    simp [jsonlPat] at hle
  | succ fuel ih =>
    intro s hle hno
    cases s with
    | nil =>
      have hstep : replCharsFuel jsonlPat [] (fuel + 1) ([] ++ jsonlPat)
          = replCharsFuel jsonlPat [] fuel [] := rfl
      rw [hstep]
      cases fuel with
      | zero => rfl
      | succ n => rfl
    | cons c s' =>
      have hpre := jsonlPat_not_prefix_straddle hno
      have hcond : (!jsonlPat.isEmpty && jsonlPat.isPrefixOf ((c :: s') ++ jsonlPat)) = false := by
        rw [hpre, Bool.and_false]
      have hstep : replCharsFuel jsonlPat [] (fuel + 1) ((c :: s') ++ jsonlPat)
          = c :: replCharsFuel jsonlPat [] fuel (s' ++ jsonlPat) := by
        show (if (!jsonlPat.isEmpty && jsonlPat.isPrefixOf ((c :: s') ++ jsonlPat)) = true then
            [] ++ replCharsFuel jsonlPat [] fuel
              (List.drop (jsonlPat.length - 1) (s' ++ jsonlPat))
          else c :: replCharsFuel jsonlPat [] fuel (s' ++ jsonlPat))
          = c :: replCharsFuel jsonlPat [] fuel (s' ++ jsonlPat)
        rw [hcond]
        simp
      rw [hstep]
      have hno' := (containsSub_cons_false hno).2
      have hle' : (s' ++ jsonlPat).length ≤ fuel := by
        simp only [List.length_append, List.length_cons] at hle ⊢
        omega
      rw [ih s' hle' hno']

/-- Removal of a unique trailing extension, at the level of strings. -/
theorem sessionIdOf_stem (stem : String)
    (hstem : containsSub jsonlPat stem.data = false) :
    sessionIdOf (stem ++ ".jsonl") = stem := by
  have hdata : (stem ++ ".jsonl").data = stem.data ++ jsonlPat := by
    simp [String.data_append, jsonlPat]
  unfold sessionIdOf pyReplace
  apply String.ext
  simp only [hdata]
  exact replCharsFuel_stem_append _ _ le_rfl hstem

/-- C9 amended: the identifier recorded for a wasteful file is the file
name with every occurrence of ".jsonl" removed; in particular, whenever
".jsonl" occurs in the name only as the trailing extension, the identifier
is the name minus exactly that final suffix (the original claim holds for
such names, which covers every uuid-shaped session file). -/
theorem c9_session_id_amended (stem : String) (lines : List (Option JVal))
    (hstem : containsSub jsonlPat stem.data = false)
    (hw : classifyLines lines = .ok false) :
    processFiles [⟨stem ++ ".jsonl", true, lines⟩] = .ok [stem] := by
  rw [processFiles_singleton_wasteful hw, sessionIdOf_stem stem hstem]

theorem c9_witness :
    processFiles [⟨"abc" ++ ".jsonl", true, []⟩] = .ok ["abc"] :=
  c9_session_id_amended "abc" [] (by decide) (by decide)

/-- Shape condition under which the classifier's per-event step cannot
raise: the parsed line is a JSON object whose message field, when present,
is itself an object whose content field, when present, is a string or an
array. Lines violating it can reach the uncaught AttributeError or
TypeError of scan.py lines 40-78. -/
def wfEvent : JVal → Bool
  | .obj kvs =>
    (match List.lookup "message" kvs with
     | none => true
     | some (.obj kvs2) =>
       (match List.lookup "content" kvs2 with
        | none => true
        | some (.str _) => true
        | some (.arr _) => true
        | some _ => false)
     | some _ => false)
  | _ => false

theorem classifyEvent_ok_of_wf {ev : JVal} (h : wfEvent ev = true) :
    ∃ b, classifyEvent ev = .ok b := by
  cases ev with
  | null => simp [wfEvent] at h
  | bool b => simp [wfEvent] at h
  | num n => simp [wfEvent] at h
  | str s => simp [wfEvent] at h
  | arr xs => simp [wfEvent] at h
  | obj kvs =>
    have h' : (match List.lookup "message" kvs with
        | none => true
        | some (JVal.obj kvs2) =>
          (match List.lookup "content" kvs2 with
           | none => true
           | some (JVal.str _) => true
           | some (JVal.arr _) => true
           | some _ => false)
        | some _ => false) = true := h
    unfold classifyEvent
    simp only [pyGet]
    split
    · exact ⟨false, rfl⟩
    · split
      · exact ⟨true, rfl⟩
      · split
        · split
          · exact ⟨false, rfl⟩
          · cases hm : List.lookup "message" kvs with
            | none =>
              simp only [hm, Option.getD_none]
              exact ⟨false, rfl⟩
            | some mv =>
              rw [hm] at h'
              cases mv with
              | obj kvs2 =>
                have h2 : (match List.lookup "content" kvs2 with
                    | none => true
                    | some (JVal.str _) => true
                    | some (JVal.arr _) => true
                    | some _ => false) = true := h'
                simp only [Option.getD_some]
                cases hcnt : List.lookup "content" kvs2 with
                | none =>
                  simp only [hcnt, Option.getD_none]
                  exact ⟨false, rfl⟩
                | some cv =>
                  rw [hcnt] at h2
                  cases cv with
                  | str s2 =>
                    simp only [hcnt, Option.getD_some]
                    by_cases hb1 : localCmdSearch s2 = true
                    · exact ⟨false, by simp [hb1]⟩
                    · by_cases hb2 : stdoutMatch s2 = true
                      · exact ⟨false, by simp [hb1, hb2]⟩
                      · by_cases hb3 : (pyStrip s2).isEmpty = true
                        · exact ⟨false, by simp [hb1, hb2, hb3]⟩
                        · exact ⟨true, by simp [hb1, hb2, hb3]⟩
                  | arr xs2 =>
                    simp only [hcnt, Option.getD_some]
                    exact ⟨true, rfl⟩
                  | null => simp at h2
                  | bool b2 => simp at h2
                  | num n2 => simp at h2
                  | obj kvs3 => simp at h2
              | null => simp at h'
              | bool b2 => simp at h'
              | num n2 => simp at h'
              | str s2 => simp at h'
              | arr xs2 => simp at h'
        · exact ⟨false, rfl⟩

theorem classifyLines_ok_of_wf {lines : List (Option JVal)}
    (h : ∀ ev, some ev ∈ lines → wfEvent ev = true) :
    ∃ b, classifyLines lines = .ok b := by
  induction lines with
  | nil => exact ⟨false, rfl⟩
  | cons hd tl ih =>
    cases hd with
    | none => exact ih fun ev hm => h ev (List.mem_cons_of_mem _ hm)
    | some ev =>
      obtain ⟨b, hb⟩ := classifyEvent_ok_of_wf (h ev (List.mem_cons_self _ _))
      cases b with
      | true => exact ⟨true, by simp [classifyLines, hb]⟩
      | false =>
        obtain ⟨b', hb'⟩ := ih fun ev' hm => h ev' (List.mem_cons_of_mem _ hm)
        exact ⟨b', by simp [classifyLines, hb, hb']⟩

theorem processFiles_ok_of_wf {files : List SessionFile}
    (h : ∀ f ∈ files, ∀ ev, some ev ∈ f.lines → wfEvent ev = true) :
    ∃ ids, processFiles files = .ok ids := by
  induction files with
  | nil => exact ⟨[], rfl⟩
  | cons f rest ih =>
    obtain ⟨ids, hids⟩ := ih fun g hg => h g (List.mem_cons_of_mem _ hg)
    cases hr : f.readable with
    | false => exact ⟨ids, by simp [processFiles, hr, hids]⟩
    | true =>
      obtain ⟨b, hb⟩ := classifyLines_ok_of_wf (h f (List.mem_cons_self _ _))
      cases b with
      | true => exact ⟨ids, by simp [processFiles, hr, hb, hids]⟩
      | false =>
        exact ⟨sessionIdOf f.name :: ids, by simp [processFiles, hr, hb, hids]⟩

theorem processProject_ok_of_wf {files : List SessionFile}
    (h : ∀ f ∈ files, ∀ ev, some ev ∈ f.lines → wfEvent ev = true) :
    ∃ r, processProject files = .ok r := by
  cases he : (files.filter fun f => pyEndsWith f.name ".jsonl").isEmpty with
  | true => exact ⟨none, by simp [processProject, he]⟩
  | false =>
    obtain ⟨ids, hids⟩ := @processFiles_ok_of_wf
      (files.filter fun f => pyEndsWith f.name ".jsonl")
      (fun f hf ev hev => h f (List.mem_of_mem_filter hf) ev hev)
    exact ⟨if ids.isEmpty then none
        else some ⟨(files.filter fun f => pyEndsWith f.name ".jsonl").length,
          ids.length, ids⟩,
      by simp [processProject, he, hids]⟩

theorem scanGo_ok_of_wf {t : List DirEntry}
    (h : ∀ e ∈ t, ∀ f ∈ e.files, ∀ ev, some ev ∈ f.lines → wfEvent ev = true) :
    ∃ r, scanGo t = .ok r := by
  induction t with
  | nil => exact ⟨[], rfl⟩
  | cons e rest ih =>
    obtain ⟨r, hr⟩ := ih fun e' he' => h e' (List.mem_cons_of_mem _ he')
    cases hd : e.isDir with
    | false => exact ⟨r, by simp [scanGo, hd, hr]⟩
    | true =>
      obtain ⟨pr, hpr⟩ := processProject_ok_of_wf (h e (List.mem_cons_self _ _))
      cases pr with
      | none => exact ⟨r, by simp [scanGo, hd, hpr, hr]⟩
      | some v => exact ⟨(e.name, v) :: r, by simp [scanGo, hd, hpr, hr]⟩

theorem scanMain_ok_of_wf (baseExists : Bool) {t : List DirEntry}
    (h : ∀ e ∈ t, ∀ f ∈ e.files, ∀ ev, some ev ∈ f.lines → wfEvent ev = true) :
    ∃ out, scanMain baseExists t = .ok out := by
  cases baseExists with
  | false => exact ⟨.noBase, rfl⟩
  | true =>
    have hsorted : ∀ e ∈ sortByName t, ∀ f ∈ e.files, ∀ ev, some ev ∈ f.lines →
        wfEvent ev = true := by
      intro e he
      exact h e ((List.perm_insertionSort nameLe t).mem_iff.mp he)
    obtain ⟨r, hr⟩ := scanGo_ok_of_wf hsorted
    exact ⟨.report r, by simp [scanMain, scanTree, hr]⟩

/-- Whether a JSON value is an object. Index entries must be objects for
e.get("sessionId") not to raise. -/
def isObjB : JVal → Bool
  | .obj _ => true
  | _ => false

/-- Shape condition under which a parsed index file cannot make the
deleter's index handling raise: the documented shape (an object whose
entries member, when present, is an array of objects), or any falsy value,
or a string or array in which the membership test "entries" in index_data
comes out false. Parseable index files outside this shape reach the
uncaught TypeError or AttributeError of delete.py lines 41-45. -/
def wfIndexVal : JVal → Bool
  | .obj kvs =>
    (match List.lookup "entries" kvs with
     | none => true
     | some (.arr es) => es.all isObjB
     | some _ => false)
  | .null => true
  | .bool b => !b
  | .num n => n == 0
  | .str s => !containsSub "entries".data s.data
  | .arr xs => xs.all fun x => !x.isStrEq "entries"

/-- A filesystem whose parseable files all hold well-shaped JSON, as
json.load of index files written by the session-recording side produces. -/
def WFfs (fs : FS) : Prop :=
  ∀ p v, fs.files p = some (some v) → wfIndexVal v = true

theorem any_key_eq_lookup (k : String) (kvs : List (String × JVal)) :
    (kvs.any fun kv => kv.1 == k) = (List.lookup k kvs).isSome := by
  induction kvs with
  | nil => rfl
  | cons kv rest ih =>
    by_cases hkv : kv.1 = k
    · simp [List.any_cons, List.lookup, hkv]
    · have h1 : (kv.1 == k) = false := beq_false_of_ne hkv
      have h2 : (k == kv.1) = false := beq_false_of_ne (Ne.symm hkv)
      simp [List.any_cons, List.lookup, h1, h2, ih]

theorem lookup_setKey (kvs : List (String × JVal)) (k : String) (v : JVal) :
    List.lookup k (setKey kvs k v) = some v := by
  induction kvs with
  | nil => simp [setKey, List.lookup]
  | cons kv rest ih =>
    by_cases hkv : kv.1 = k
    · simp [setKey, hkv, List.lookup]
    · have h1 : (kv.1 == k) = false := beq_false_of_ne hkv
      have h2 : (k == kv.1) = false := beq_false_of_ne (Ne.symm hkv)
      simp [setKey, h1, List.lookup, h2, ih]

theorem filterList_ok {sid : String} {es : List JVal} (h : es.all isObjB = true) :
    ∃ es', filterList sid es = .ok es' ∧ es'.all isObjB = true ∧
      (∀ e ∈ es', entryKeep sid e = .ok true) ∧ ∀ e ∈ es', e ∈ es := by
  induction es with
  | nil => exact ⟨[], rfl, rfl, fun e he => absurd he (List.not_mem_nil e), fun e he => he⟩
  | cons e rest ih =>
    rw [List.all_cons, Bool.and_eq_true] at h
    obtain ⟨es', hes', hall, hkeep, hsub⟩ := ih h.2
    cases e with
    | obj kvs =>
      have hek : entryKeep sid (JVal.obj kvs)
          = .ok (!((List.lookup "sessionId" kvs).getD .null).isStrEq sid) := rfl
      cases hb : (!((List.lookup "sessionId" kvs).getD JVal.null).isStrEq sid) with
      | true =>
        refine ⟨JVal.obj kvs :: es', ?_, ?_, ?_, ?_⟩
        · simp [filterList, hek, hb, hes']
        · simp [hall, isObjB]
        · intro e he
          rcases List.mem_cons.mp he with he1 | he2
          · rw [he1, hek, hb]
          · exact hkeep e he2
        · intro e he
          rcases List.mem_cons.mp he with he1 | he2
          · exact he1 ▸ List.mem_cons_self _ _
          · exact List.mem_cons_of_mem _ (hsub e he2)
      | false =>
        refine ⟨es', ?_, hall, hkeep, fun e he => List.mem_cons_of_mem _ (hsub e he)⟩
        simp [filterList, hek, hb, hes']
    | null => simp [isObjB] at h
    | bool b => simp [isObjB] at h
    | num n => simp [isObjB] at h
    | str s => simp [isObjB] at h
    | arr xs => simp [isObjB] at h

/-- Totality and shape preservation of the guarded index filtering on
well-shaped in-memory indexes. -/
theorem indexStep_ok_of_wf {sid : String} {idx : Option JVal}
    (h : ∀ v, idx = some v → wfIndexVal v = true) :
    ∃ idx', indexStep sid idx = (idx', none) ∧
      ∀ v', idx' = some v' → wfIndexVal v' = true := by
  cases idx with
  | none => exact ⟨none, rfl, fun v' hv' => by cases hv'⟩
  | some v =>
    have hwf := h v rfl
    cases v with
    | null => exact ⟨some .null, rfl, fun v' hv' => by cases hv'; exact hwf⟩
    | bool b =>
      have hb : b = false := by
        have : (!b) = true := hwf
        cases b
        · rfl
        · cases this
      subst hb
      exact ⟨some (.bool false), rfl, fun v' hv' => by cases hv'; exact hwf⟩
    | num n =>
      have hn : (n == 0) = true := hwf
      have hn' : n = 0 := by exact_mod_cast eq_of_beq hn
      subst hn'
      exact ⟨some (.num 0), rfl, fun v' hv' => by cases hv'; exact hwf⟩
    | str s =>
      have hs : containsSub "entries".data s.data = false := by
        have : (!containsSub "entries".data s.data) = true := hwf
        cases hc : containsSub "entries".data s.data
        · rfl
        · rw [hc] at this; cases this
      refine ⟨some (.str s), ?_, fun v' hv' => by cases hv'; exact hwf⟩
      unfold indexStep
      cases ht : (JVal.str s).truthy with
      | false => simp [ht]
      | true => simp [ht, pyInTest, hs]
    | arr xs =>
      have hx : (xs.any fun x => x.isStrEq "entries") = false := by
        have hal : (xs.all fun x => !x.isStrEq "entries") = true := hwf
        rw [List.all_eq_true] at hal
        rw [List.any_eq_false]
        intro x hxm
        have := hal x hxm
        cases hb : x.isStrEq "entries"
        · simp
        · rw [hb] at this; cases this
      refine ⟨some (.arr xs), ?_, fun v' hv' => by cases hv'; exact hwf⟩
      unfold indexStep
      cases ht : (JVal.arr xs).truthy with
      | false => simp [ht]
      | true => simp [ht, pyInTest, hx]
    | obj kvs =>
      have hwf' : (match List.lookup "entries" kvs with
          | none => true
          | some (.arr es) => es.all isObjB
          | some _ => false) = true := hwf
      cases hl : List.lookup "entries" kvs with
      | none =>
        refine ⟨some (.obj kvs), ?_, fun v' hv' => by cases hv'; exact hwf⟩
        unfold indexStep
        have hany : (kvs.any fun kv => kv.1 == "entries") = false := by
          rw [any_key_eq_lookup, hl]
          rfl
        cases ht : (JVal.obj kvs).truthy with
        | false => simp [ht]
        | true => simp [ht, pyInTest, hany]
      | some ev =>
        rw [hl] at hwf'
        cases ev with
        | arr es =>
          have hwf2 : es.all isObjB = true := hwf'
          obtain ⟨es', hes', hall, _, _⟩ := @filterList_ok sid es hwf2
          have hany : (kvs.any fun kv => kv.1 == "entries") = true := by
            rw [any_key_eq_lookup, hl]
            rfl
          have ht : (JVal.obj kvs).truthy = true := by
            cases kvs with
            | nil => cases hl
            | cons kv rest => rfl
          have hfi : filterIndex sid (JVal.obj kvs)
              = .ok (.obj (setKey kvs "entries" (.arr es'))) := by
            unfold filterIndex pySubscript
            simp only [hl, pyIterate, hes']
          refine ⟨some (.obj (setKey kvs "entries" (.arr es'))), ?_, ?_⟩
          · unfold indexStep
            simp [ht, pyInTest, hany, hfi]
          · intro v' hv'
            cases hv'
            have hlk : List.lookup "entries" (setKey kvs "entries" (JVal.arr es'))
                = some (.arr es') := lookup_setKey _ _ _
            show (match List.lookup "entries" (setKey kvs "entries" (JVal.arr es')) with
                | none => true
                | some (.arr es) => es.all isObjB
                | some _ => false) = true
            rw [hlk]
            exact hall
        | null => cases hwf'
        | bool b => cases hwf'
        | num n => cases hwf'
        | str s => cases hwf'
        | obj kvs2 => cases hwf'

theorem tryRemove_fs (o : Oracle) (st : DelState) (p : String) :
    (tryRemove o st p).fs = st.fs ∨ (tryRemove o st p).fs = removeFile st.fs p := by
  unfold tryRemove
  split_ifs <;> simp

theorem tryRmtree_fs (o : Oracle) (st : DelState) (d : String) :
    (tryRmtree o st d).fs = st.fs ∨ (tryRmtree o st d).fs = rmtree st.fs d := by
  unfold tryRmtree
  split_ifs <;> simp

theorem removeFile_wffs {fs : FS} {p : String} (h : WFfs fs) : WFfs (removeFile fs p) := by
  intro q v hq
  unfold removeFile at hq
  by_cases hqp : q = p
  · simp [hqp] at hq
  · simp only [hqp, if_false] at hq
    exact h q v hq

theorem rmtree_wffs {fs : FS} {d : String} (h : WFfs fs) : WFfs (rmtree fs d) := by
  intro q v hq
  unfold rmtree at hq
  by_cases hqd : underDir d q = true
  · simp [hqd] at hq
  · simp only [hqd, if_false] at hq
    exact h q v hq

theorem writeFile_wffs {fs : FS} {p : String} {c : Option JVal} (h : WFfs fs)
    (hc : ∀ v, c = some v → wfIndexVal v = true) : WFfs (writeFile fs p c) := by
  intro q v hq
  unfold writeFile at hq
  by_cases hqp : q = p
  · simp only [hqp, if_true, if_pos rfl] at hq
    exact hc v (Option.some.inj hq)
  · simp only [hqp, if_false] at hq
    exact h q v hq

theorem delSession_fst (o : Oracle) (projPath : String) (st : DelState) (idx : Option JVal)
    (sid : String) :
    (delSession o projPath st idx sid).1
      = tryRmtree o (tryRemove o st (pjoin projPath (sid ++ ".jsonl"))) (pjoin projPath sid) :=
  rfl

theorem delSession_wffs {o : Oracle} {projPath : String} {st : DelState} {idx : Option JVal}
    {sid : String} (h : WFfs st.fs) : WFfs (delSession o projPath st idx sid).1.fs := by
  rw [delSession_fst]
  have h1 : WFfs (tryRemove o st (pjoin projPath (sid ++ ".jsonl"))).fs := by
    rcases tryRemove_fs o st (pjoin projPath (sid ++ ".jsonl")) with h2 | h2
    · rw [h2]; exact h
    · rw [h2]; exact removeFile_wffs h
  rcases tryRmtree_fs o (tryRemove o st (pjoin projPath (sid ++ ".jsonl"))) (pjoin projPath sid)
    with h2 | h2
  · rw [h2]; exact h1
  · rw [h2]; exact rmtree_wffs h1

theorem delSessions_ok_of_wf {o : Oracle} {projPath : String} :
    ∀ (sids : List String) (st : DelState) (idx : Option JVal),
      (∀ v, idx = some v → wfIndexVal v = true) →
      ∃ st' idx', delSessions o projPath st idx sids = (st', idx', none) ∧
        (∀ v', idx' = some v' → wfIndexVal v' = true) ∧ (WFfs st.fs → WFfs st'.fs) := by
  intro sids
  induction sids with
  | nil => exact fun st idx h => ⟨st, idx, rfl, h, fun hf => hf⟩
  | cons sid rest ih =>
    intro st idx h
    obtain ⟨idx1, hstep, hwf1⟩ := indexStep_ok_of_wf h
    have hds : delSession o projPath st idx sid
        = (tryRmtree o (tryRemove o st (pjoin projPath (sid ++ ".jsonl")))
            (pjoin projPath sid), idx1, none) := by
      unfold delSession
      rw [hstep]
    obtain ⟨st', idx', hrec, hwf', hfs'⟩ := ih
      (tryRmtree o (tryRemove o st (pjoin projPath (sid ++ ".jsonl"))) (pjoin projPath sid))
      idx1 hwf1
    refine ⟨st', idx', ?_, hwf', ?_⟩
    · simp only [delSessions, hds, hrec]
    · intro hf
      exact hfs' (by
        have := @delSession_wffs o projPath st idx sid hf
        rw [delSession_fst] at this
        exact this)

theorem delProject_ok_of_wf {o : Oracle} {base : String} {st : DelState}
    {proj : String × List String} (hfs : WFfs st.fs) :
    ∃ st', delProject o base st proj = (st', none) ∧ WFfs st'.fs := by
  have hidx0 : ∀ v,
      loadIndex st.fs (pjoin (pjoin base proj.1) "sessions-index.json") = some v →
      wfIndexVal v = true := by
    intro v hv
    unfold loadIndex at hv
    cases hf : st.fs.files (pjoin (pjoin base proj.1) "sessions-index.json") with
    | none => rw [hf] at hv; cases hv
    | some c =>
      cases c with
      | none => rw [hf] at hv; cases hv
      | some w =>
        rw [hf] at hv
        cases hv
        exact hfs _ _ hf
  obtain ⟨st1, idx, hrun, hwfidx, hfs1⟩ :=
    @delSessions_ok_of_wf o (pjoin base proj.1) proj.2 st
      (loadIndex st.fs (pjoin (pjoin base proj.1) "sessions-index.json")) hidx0
  cases idx with
  | none =>
    refine ⟨st1, ?_, hfs1 hfs⟩
    unfold delProject
    simp only [hrun]
  | some v =>
    by_cases hw : o.writeFails (pjoin (pjoin base proj.1) "sessions-index.json") = true
    · refine ⟨{ st1 with errors := st1.errors
          ++ [DelErr.indexWrite (pjoin (pjoin base proj.1) "sessions-index.json")] },
        ?_, hfs1 hfs⟩
      unfold delProject
      simp [hrun, hw]
    · refine ⟨{ st1 with
          fs := writeFile st1.fs (pjoin (pjoin base proj.1) "sessions-index.json") (some v) },
        ?_, ?_⟩
      · unfold delProject
        simp [hrun, hw]
      · exact writeFile_wffs (hfs1 hfs) (fun w hwv => hwfidx w hwv)

theorem delGo_ok_of_wf {o : Oracle} {base : String} :
    ∀ (report : List (String × List String)) (st : DelState), WFfs st.fs →
      (delGo o base st report).2 = none := by
  intro report
  induction report with
  | nil => intro st _; rfl
  | cons proj rest ih =>
    intro st hfs
    obtain ⟨st', hproj, hfs'⟩ := @delProject_ok_of_wf o base st proj hfs
    simp only [delGo, hproj]
    exact ih st' hfs'

/-- C2 counterexample: a session file holding the single parseable line
with payload type "user" and message "hi" (valid JSON, malformed payload:
the message field is a string, not an object). scan.py raises an uncaught
AttributeError at line 57 on it, so the process neither exits zero nor
prints a JSON object, contradicting the claim for arbitrary malformed
payloads. -/
theorem c2_counterexample :
    scanMain true [⟨"p", true, [⟨"s.jsonl", true,
        [some (.obj [("type", .str "user"), ("message", .str "hi")])]⟩]⟩]
      = .error .attributeError ∧
    printedScan (scanMain true [⟨"p", true, [⟨"s.jsonl", true,
        [some (.obj [("type", .str "user"), ("message", .str "hi")])]⟩]⟩]) = none := by
  constructor
  · decide
  · decide

/-- C2 amended: both processes terminate normally, with the single output
object of a normal exit, provided the inputs are well shaped — every
parseable session-log line is a JSON object whose message field, when
present, is an object whose content field, when present, is a string or an
array; and every parseable file content on the deleter's filesystem is a
well-shaped index value (the documented object-with-entries shape, a falsy
value, or a container for which the entries membership test is false).
Outside those shapes the scripts raise uncaught AttributeError or
TypeError, as the counterexample shows. -/
theorem c2_no_crash_amended :
    (∀ (baseExists : Bool) (t : List DirEntry),
      (∀ e ∈ t, ∀ f ∈ e.files, ∀ ev, some ev ∈ f.lines → wfEvent ev = true) →
      ∃ out, scanMain baseExists t = .ok out ∧ printedScan (scanMain baseExists t) ≠ none) ∧
    (∀ (o : Oracle) (base : String) (report : List (String × List String)) (fs0 : FS),
      WFfs fs0 → (runDeleter o base report fs0).2 = none) := by
  constructor
  · intro baseExists t h
    obtain ⟨out, hout⟩ := scanMain_ok_of_wf baseExists h
    refine ⟨out, hout, ?_⟩
    rw [hout]
    cases out with
    | noBase => simp [printedScan]
    | report r => simp [printedScan]
  · intro o base report fs0 h
    exact delGo_ok_of_wf report _ h

theorem c2_witness :
    (∃ out, scanMain true [⟨"p", true, [⟨"a.jsonl", true, []⟩]⟩] = .ok out ∧
      printedScan (scanMain true [⟨"p", true, [⟨"a.jsonl", true, []⟩]⟩]) ≠ none) ∧
    (runDeleter noFailOracle "b" [("p", ["s"])] (mkFS [] [])).2 = none :=
  ⟨c2_no_crash_amended.1 true [⟨"p", true, [⟨"a.jsonl", true, []⟩]⟩]
      (by
        intro e he f hf ev hev
        rcases List.mem_singleton.mp he with rfl
        rcases List.mem_singleton.mp hf with rfl
        cases hev),
    c2_no_crash_amended.2 noFailOracle "b" [("p", ["s"])] (mkFS [] [])
      (fun p v h => Option.noConfusion h)⟩

theorem delSessions_cons (o : Oracle) (projPath : String) (st : DelState) (idx : Option JVal)
    (sid : String) (rest : List String) :
    delSessions o projPath st idx (sid :: rest)
      = (match indexStep sid idx with
        | (idx1, none) => delSessions o projPath
            (tryRmtree o (tryRemove o st (pjoin projPath (sid ++ ".jsonl")))
              (pjoin projPath sid)) idx1 rest
        | (idx1, some e) =>
            (tryRmtree o (tryRemove o st (pjoin projPath (sid ++ ".jsonl")))
              (pjoin projPath sid), idx1, some e)) := by
  cases histep : indexStep sid idx with
  | mk idx1 e1 =>
    cases e1 with
    | none => simp only [delSessions, delSession, histep]
    | some e => simp only [delSessions, delSession, histep]

theorem delProject_eq (o : Oracle) (base : String) (st : DelState)
    (proj : String × List String) :
    delProject o base st proj
      = (match delSessions o (pjoin base proj.1) st
            (loadIndex st.fs (indexPathOf base proj.1)) proj.2 with
        | (st1, _, some e) => (st1, some e)
        | (st1, none, none) => (st1, none)
        | (st1, some v, none) =>
          if o.writeFails (indexPathOf base proj.1) then
            ({ st1 with errors := st1.errors
                ++ [DelErr.indexWrite (indexPathOf base proj.1)] }, none)
          else ({ st1 with fs := writeFile st1.fs (indexPathOf base proj.1) (some v) },
            none)) := by
  unfold delProject indexPathOf
  cases hds : delSessions o (pjoin base proj.1) st
      (loadIndex st.fs (pjoin (pjoin base proj.1) "sessions-index.json")) proj.2 with
  | mk st1 r =>
    cases r with
    | mk idx e =>
      simp only [hds]
      cases e <;> cases idx <;> rfl

theorem delGo_cons (o : Oracle) (base : String) (st : DelState)
    (proj : String × List String) (rest : List (String × List String)) :
    delGo o base st (proj :: rest)
      = (match delProject o base st proj with
        | (st', none) => delGo o base st' rest
        | (st', some e) => (st', some e)) := rfl

theorem tryRemove_files_other {o : Oracle} {st : DelState} {p q : String} (h : q ≠ p) :
    (tryRemove o st p).fs.files q = st.fs.files q := by
  unfold tryRemove
  split_ifs <;> simp [removeFile, h]

theorem tryRemove_dirs (o : Oracle) (st : DelState) (p : String) :
    (tryRemove o st p).fs.dirs = st.fs.dirs := by
  unfold tryRemove
  split_ifs <;> rfl

theorem tryRmtree_files_other {o : Oracle} {st : DelState} {d q : String}
    (h : underDir d q = false) :
    (tryRmtree o st d).fs.files q = st.fs.files q := by
  unfold tryRmtree
  split_ifs <;> simp [rmtree, h]

theorem tryRmtree_dirs_other {o : Oracle} {st : DelState} {d q : String}
    (h1 : q ≠ d) (h2 : underDir d q = false) :
    (tryRmtree o st d).fs.dirs q = st.fs.dirs q := by
  unfold tryRmtree
  split_ifs <;> simp [rmtree, h1, h2]

theorem delSession_files_other {o : Oracle} {projPath : String} {st : DelState}
    {idx : Option JVal} {sid q : String}
    (h1 : q ≠ pjoin projPath (sid ++ ".jsonl"))
    (h2 : underDir (pjoin projPath sid) q = false) :
    (delSession o projPath st idx sid).1.fs.files q = st.fs.files q := by
  rw [delSession_fst, tryRmtree_files_other h2, tryRemove_files_other h1]

theorem delSession_dirs_other {o : Oracle} {projPath : String} {st : DelState}
    {idx : Option JVal} {sid q : String}
    (h1 : q ≠ pjoin projPath sid) (h2 : underDir (pjoin projPath sid) q = false) :
    (delSession o projPath st idx sid).1.fs.dirs q = st.fs.dirs q := by
  rw [delSession_fst, tryRmtree_dirs_other h1 h2, tryRemove_dirs]

theorem delSessions_files_other {o : Oracle} {projPath q : String} :
    ∀ (sids : List String) (st : DelState) (idx : Option JVal),
      (∀ s ∈ sids, q ≠ pjoin projPath (s ++ ".jsonl") ∧
        underDir (pjoin projPath s) q = false) →
      (delSessions o projPath st idx sids).1.fs.files q = st.fs.files q := by
  intro sids
  induction sids with
  | nil => intro st idx _; rfl
  | cons sid rest ih =>
    intro st idx h
    have hh := h sid (List.mem_cons_self _ _)
    rw [delSessions_cons]
    cases histep : indexStep sid idx with
    | mk idx1 e1 =>
      cases e1 with
      | none =>
        show (delSessions o projPath
            (tryRmtree o (tryRemove o st (pjoin projPath (sid ++ ".jsonl")))
              (pjoin projPath sid)) idx1 rest).1.fs.files q = st.fs.files q
        rw [ih _ _ fun s hs => h s (List.mem_cons_of_mem _ hs)]
        rw [tryRmtree_files_other hh.2, tryRemove_files_other hh.1]
      | some e =>
        show (tryRmtree o (tryRemove o st (pjoin projPath (sid ++ ".jsonl")))
            (pjoin projPath sid)).fs.files q = st.fs.files q
        rw [tryRmtree_files_other hh.2, tryRemove_files_other hh.1]

theorem delSessions_dirs_other {o : Oracle} {projPath q : String} :
    ∀ (sids : List String) (st : DelState) (idx : Option JVal),
      (∀ s ∈ sids, q ≠ pjoin projPath s ∧ underDir (pjoin projPath s) q = false) →
      (delSessions o projPath st idx sids).1.fs.dirs q = st.fs.dirs q := by
  intro sids
  induction sids with
  | nil => intro st idx _; rfl
  | cons sid rest ih =>
    intro st idx h
    have hh := h sid (List.mem_cons_self _ _)
    rw [delSessions_cons]
    cases histep : indexStep sid idx with
    | mk idx1 e1 =>
      cases e1 with
      | none =>
        show (delSessions o projPath
            (tryRmtree o (tryRemove o st (pjoin projPath (sid ++ ".jsonl")))
              (pjoin projPath sid)) idx1 rest).1.fs.dirs q = st.fs.dirs q
        rw [ih _ _ fun s hs => h s (List.mem_cons_of_mem _ hs)]
        rw [tryRmtree_dirs_other hh.1 hh.2, tryRemove_dirs]
      | some e =>
        show (tryRmtree o (tryRemove o st (pjoin projPath (sid ++ ".jsonl")))
            (pjoin projPath sid)).fs.dirs q = st.fs.dirs q
        rw [tryRmtree_dirs_other hh.1 hh.2, tryRemove_dirs]

theorem delProject_files_other {o : Oracle} {base q : String} {st : DelState}
    {proj : String × List String}
    (h1 : ∀ s ∈ proj.2, q ≠ jsonlPathOf base proj.1 s ∧
      underDir (companionOf base proj.1 s) q = false)
    (h2 : q ≠ indexPathOf base proj.1) :
    (delProject o base st proj).1.fs.files q = st.fs.files q := by
  rw [delProject_eq]
  have hs := @delSessions_files_other o (pjoin base proj.1) q proj.2 st
    (loadIndex st.fs (indexPathOf base proj.1)) h1
  cases hds : delSessions o (pjoin base proj.1) st
      (loadIndex st.fs (indexPathOf base proj.1)) proj.2 with
  | mk st1 r =>
    rw [hds] at hs
    cases r with
    | mk idx e =>
      cases idx with
      | none => cases e <;> exact hs
      | some v =>
        cases e with
        | some e' => exact hs
        | none =>
          by_cases hw : o.writeFails (indexPathOf base proj.1) = true
          · simp only [hw, if_true]
            exact hs
          · simp only [hw, if_false]
            show (writeFile st1.fs (indexPathOf base proj.1) (some v)).files q
              = st.fs.files q
            unfold writeFile
            simp only [h2, if_false]
            exact hs

theorem delProject_dirs_other {o : Oracle} {base q : String} {st : DelState}
    {proj : String × List String}
    (h1 : ∀ s ∈ proj.2, q ≠ companionOf base proj.1 s ∧
      underDir (companionOf base proj.1 s) q = false) :
    (delProject o base st proj).1.fs.dirs q = st.fs.dirs q := by
  rw [delProject_eq]
  have hs := @delSessions_dirs_other o (pjoin base proj.1) q proj.2 st
    (loadIndex st.fs (indexPathOf base proj.1)) h1
  cases hds : delSessions o (pjoin base proj.1) st
      (loadIndex st.fs (indexPathOf base proj.1)) proj.2 with
  | mk st1 r =>
    rw [hds] at hs
    cases r with
    | mk idx e =>
      cases idx with
      | none => cases e <;> exact hs
      | some v =>
        cases e with
        | some e' => exact hs
        | none =>
          by_cases hw : o.writeFails (indexPathOf base proj.1) = true
          · simp only [hw, if_true]
            exact hs
          · simp only [hw, if_false]
            exact hs

/-- Paths the deleter may mutate as files during a run: the log file of a
listed session, anything inside the companion directory of a listed session
(removing a directory removes the entries beneath it), or the
sessions-index.json of a project named in the report. -/
def isTargetFile (base : String) (report : List (String × List String)) (p : String) : Bool :=
  report.any fun pr =>
    (pr.2.any fun s =>
      p == jsonlPathOf base pr.1 s || underDir (companionOf base pr.1 s) p) ||
    p == indexPathOf base pr.1

/-- Directories the deleter may mutate during a run: the companion
directory of a listed session or anything beneath it. -/
def isTargetDir (base : String) (report : List (String × List String)) (d : String) : Bool :=
  report.any fun pr => pr.2.any fun s =>
    d == companionOf base pr.1 s || underDir (companionOf base pr.1 s) d

theorem delGo_files_other {o : Oracle} {base q : String} :
    ∀ (report : List (String × List String)) (st : DelState),
      isTargetFile base report q = false →
      (delGo o base st report).1.fs.files q = st.fs.files q := by
  intro report
  induction report with
  | nil => intro st _; rfl
  | cons proj rest ih =>
    intro st h
    unfold isTargetFile at h
    rw [List.any_cons, Bool.or_eq_false_iff] at h
    obtain ⟨hproj, hrest⟩ := h
    rw [Bool.or_eq_false_iff] at hproj
    obtain ⟨hsess, hidx⟩ := hproj
    have hidx' : q ≠ indexPathOf base proj.1 := ne_of_beq_false hidx
    have hsess' : ∀ s ∈ proj.2, q ≠ jsonlPathOf base proj.1 s ∧
        underDir (companionOf base proj.1 s) q = false := by
      intro s hsmem
      have hx := List.any_eq_false.mp hsess s hsmem
      rw [Bool.not_eq_true, Bool.or_eq_false_iff] at hx
      exact ⟨ne_of_beq_false hx.1, hx.2⟩
    have hpf := @delProject_files_other o base q st proj hsess' hidx'
    rw [delGo_cons]
    cases hdp : delProject o base st proj with
    | mk st' e =>
      rw [hdp] at hpf
      cases e with
      | none =>
        show (delGo o base st' rest).1.fs.files q = st.fs.files q
        rw [ih st' hrest]
        exact hpf
      | some e' => exact hpf

theorem delGo_dirs_other {o : Oracle} {base q : String} :
    ∀ (report : List (String × List String)) (st : DelState),
      isTargetDir base report q = false →
      (delGo o base st report).1.fs.dirs q = st.fs.dirs q := by
  intro report
  induction report with
  | nil => intro st _; rfl
  | cons proj rest ih =>
    intro st h
    unfold isTargetDir at h
    rw [List.any_cons, Bool.or_eq_false_iff] at h
    obtain ⟨hproj, hrest⟩ := h
    have hsess' : ∀ s ∈ proj.2, q ≠ companionOf base proj.1 s ∧
        underDir (companionOf base proj.1 s) q = false := by
      intro s hsmem
      have hx := List.any_eq_false.mp hproj s hsmem
      rw [Bool.not_eq_true, Bool.or_eq_false_iff] at hx
      exact ⟨ne_of_beq_false hx.1, hx.2⟩
    have hpf := @delProject_dirs_other o base q st proj hsess'
    rw [delGo_cons]
    cases hdp : delProject o base st proj with
    | mk st' e =>
      rw [hdp] at hpf
      cases e with
      | none =>
        show (delGo o base st' rest).1.fs.dirs q = st.fs.dirs q
        rw [ih st' hrest]
        exact hpf
      | some e' => exact hpf

/-- C10: frame property of the deleter. Whatever the oracle outcomes and
whether or not the run crashes mid-way, the only filesystem entries a
delete run ever mutates are the log file s.jsonl of a listed session, the
companion directory s of a listed session together with everything beneath
it (removing a directory removes its contents), and the sessions-index.json
of a project named in the report; every other file and directory —
including all sessions not listed and all projects not named — is left
exactly as it was. -/
theorem c10_frame (o : Oracle) (base : String) (report : List (String × List String))
    (fs0 : FS) (p d : String) :
    (isTargetFile base report p = false →
      (runDeleter o base report fs0).1.fs.files p = fs0.files p) ∧
    (isTargetDir base report d = false →
      (runDeleter o base report fs0).1.fs.dirs d = fs0.dirs d) :=
  ⟨fun h => delGo_files_other report _ h, fun h => delGo_dirs_other report _ h⟩

theorem c10_witness :
    (runDeleter noFailOracle "b" [("p", ["s"])]
        (mkFS [("b/p/s.jsonl", none), ("b/q/t.jsonl", none)] ["b/q/t"])).1.fs.files
        "b/q/t.jsonl"
      = (mkFS [("b/p/s.jsonl", none), ("b/q/t.jsonl", none)] ["b/q/t"]).files "b/q/t.jsonl" ∧
    (runDeleter noFailOracle "b" [("p", ["s"])]
        (mkFS [("b/p/s.jsonl", none), ("b/q/t.jsonl", none)] ["b/q/t"])).1.fs.dirs "b/q/t"
      = (mkFS [("b/p/s.jsonl", none), ("b/q/t.jsonl", none)] ["b/q/t"]).dirs "b/q/t" :=
  ⟨(c10_frame noFailOracle "b" [("p", ["s"])]
      (mkFS [("b/p/s.jsonl", none), ("b/q/t.jsonl", none)] ["b/q/t"])
      "b/q/t.jsonl" "b/q/t").1 (by decide),
   (c10_frame noFailOracle "b" [("p", ["s"])]
      (mkFS [("b/p/s.jsonl", none), ("b/q/t.jsonl", none)] ["b/q/t"])
      "b/q/t.jsonl" "b/q/t").2 (by decide)⟩

theorem pjoin_data (a b : String) : (pjoin a b).data = a.data ++ '/' :: b.data := by
  unfold pjoin
  rw [String.data_append, String.data_append, List.append_assoc]
  rfl

theorem pjoin_ne_of_last {a b c d : String} {x y : Char}
    (hb : b.data.getLast? = some x) (hd : d.data.getLast? = some y) (hxy : x ≠ y) :
    pjoin a b ≠ pjoin c d := by
  intro he
  have hdat := congrArg String.data he
  rw [pjoin_data, pjoin_data] at hdat
  have h1 : (a.data ++ '/' :: b.data).getLast? = some x := by
    have he1 : a.data ++ '/' :: b.data = (a.data ++ ['/']) ++ b.data := by simp
    rw [he1, List.getLast?_append, hb]
    rfl
  have h2 : (c.data ++ '/' :: d.data).getLast? = some y := by
    have he2 : c.data ++ '/' :: d.data = (c.data ++ ['/']) ++ d.data := by simp
    rw [he2, List.getLast?_append, hd]
    rfl
  rw [hdat, h2] at h1
  exact hxy (Option.some.inj h1.symm)

theorem jsonl_getLast (s : String) : (s ++ ".jsonl").data.getLast? = some 'l' := by
  rw [String.data_append, List.getLast?_append]
  rfl

theorem indexPathOf_ne_jsonlPath (base P base' P' s : String) :
    indexPathOf base P ≠ jsonlPathOf base' P' s := by
  unfold indexPathOf jsonlPathOf
  exact pjoin_ne_of_last rfl (jsonl_getLast s) (by decide)

theorem indexPathOf_inj {base P P' : String} (h : indexPathOf base P = indexPathOf base P') :
    P = P' := by
  unfold indexPathOf at h
  have hd := congrArg String.data h
  rw [pjoin_data, pjoin_data, pjoin_data, pjoin_data] at hd
  have h1 := List.append_cancel_right hd
  have h2 := List.append_cancel_left h1
  have h3 : P.data = P'.data := by
    injection h2
  exact String.ext h3

theorem tryRemove_files_none {o : Oracle} {st : DelState} {p q : String}
    (h : st.fs.files q = none) : (tryRemove o st p).fs.files q = none := by
  rcases tryRemove_fs o st p with h2 | h2 <;> rw [h2]
  · exact h
  · unfold removeFile
    by_cases hq : q = p <;> simp [hq, h]

theorem tryRmtree_files_none {o : Oracle} {st : DelState} {d q : String}
    (h : st.fs.files q = none) : (tryRmtree o st d).fs.files q = none := by
  rcases tryRmtree_fs o st d with h2 | h2 <;> rw [h2]
  · exact h
  · unfold rmtree
    by_cases hq : underDir d q = true <;> simp [hq, h]

theorem tryRmtree_dirs_false {o : Oracle} {st : DelState} {d q : String}
    (h : st.fs.dirs q = false) : (tryRmtree o st d).fs.dirs q = false := by
  rcases tryRmtree_fs o st d with h2 | h2 <;> rw [h2]
  · exact h
  · unfold rmtree
    by_cases hq : q = d
    · simp [hq]
    · by_cases hu : underDir d q = true
      · simp [hq, hu]
      · simp [hq, hu, h]

theorem delSessions_files_none {o : Oracle} {projPath q : String} :
    ∀ (sids : List String) (st : DelState) (idx : Option JVal),
      st.fs.files q = none → (delSessions o projPath st idx sids).1.fs.files q = none := by
  intro sids
  induction sids with
  | nil => intro st idx h; exact h
  | cons sid rest ih =>
    intro st idx h
    rw [delSessions_cons]
    cases histep : indexStep sid idx with
    | mk idx1 e1 =>
      have hstep : (tryRmtree o (tryRemove o st (pjoin projPath (sid ++ ".jsonl")))
          (pjoin projPath sid)).fs.files q = none :=
        tryRmtree_files_none (tryRemove_files_none h)
      cases e1 with
      | none => exact ih _ _ hstep
      | some e => exact hstep

theorem delSessions_dirs_false {o : Oracle} {projPath q : String} :
    ∀ (sids : List String) (st : DelState) (idx : Option JVal),
      st.fs.dirs q = false → (delSessions o projPath st idx sids).1.fs.dirs q = false := by
  intro sids
  induction sids with
  | nil => intro st idx h; exact h
  | cons sid rest ih =>
    intro st idx h
    rw [delSessions_cons]
    cases histep : indexStep sid idx with
    | mk idx1 e1 =>
      have hstep : (tryRmtree o (tryRemove o st (pjoin projPath (sid ++ ".jsonl")))
          (pjoin projPath sid)).fs.dirs q = false := by
        apply tryRmtree_dirs_false
        rw [tryRemove_dirs]
        exact h
      cases e1 with
      | none => exact ih _ _ hstep
      | some e => exact hstep

theorem delProject_files_none {o : Oracle} {base q : String} {st : DelState}
    {proj : String × List String} (hq : q ≠ indexPathOf base proj.1)
    (h : st.fs.files q = none) : (delProject o base st proj).1.fs.files q = none := by
  rw [delProject_eq]
  have hs := @delSessions_files_none o (pjoin base proj.1) q proj.2 st
    (loadIndex st.fs (indexPathOf base proj.1)) h
  cases hds : delSessions o (pjoin base proj.1) st
      (loadIndex st.fs (indexPathOf base proj.1)) proj.2 with
  | mk st1 r =>
    rw [hds] at hs
    cases r with
    | mk idx e =>
      cases idx with
      | none => cases e <;> exact hs
      | some v =>
        cases e with
        | some e' => exact hs
        | none =>
          by_cases hw : o.writeFails (indexPathOf base proj.1) = true
          · simp only [hw, if_true]
            exact hs
          · simp only [hw, if_false]
            show (writeFile st1.fs (indexPathOf base proj.1) (some v)).files q = none
            unfold writeFile
            simp only [hq, if_false]
            exact hs

theorem delProject_dirs_false {o : Oracle} {base q : String} {st : DelState}
    {proj : String × List String} (h : st.fs.dirs q = false) :
    (delProject o base st proj).1.fs.dirs q = false := by
  rw [delProject_eq]
  have hs := @delSessions_dirs_false o (pjoin base proj.1) q proj.2 st
    (loadIndex st.fs (indexPathOf base proj.1)) h
  cases hds : delSessions o (pjoin base proj.1) st
      (loadIndex st.fs (indexPathOf base proj.1)) proj.2 with
  | mk st1 r =>
    rw [hds] at hs
    cases r with
    | mk idx e =>
      cases idx with
      | none => cases e <;> exact hs
      | some v =>
        cases e with
        | some e' => exact hs
        | none =>
          by_cases hw : o.writeFails (indexPathOf base proj.1) = true
          · simp only [hw, if_true]
            exact hs
          · simp only [hw, if_false]
            exact hs

theorem delGo_files_none {o : Oracle} {base q : String} :
    ∀ (report : List (String × List String)) (st : DelState),
      (∀ pr ∈ report, q ≠ indexPathOf base pr.1) →
      st.fs.files q = none → (delGo o base st report).1.fs.files q = none := by
  intro report
  induction report with
  | nil => intro st _ h; exact h
  | cons proj rest ih =>
    intro st hq h
    have hpf := @delProject_files_none o base q st proj
      (hq proj (List.mem_cons_self _ _)) h
    rw [delGo_cons]
    cases hdp : delProject o base st proj with
    | mk st' e =>
      rw [hdp] at hpf
      cases e with
      | none => exact ih st' (fun pr hpr => hq pr (List.mem_cons_of_mem _ hpr)) hpf
      | some e' => exact hpf

theorem delGo_dirs_false {o : Oracle} {base q : String} :
    ∀ (report : List (String × List String)) (st : DelState),
      st.fs.dirs q = false → (delGo o base st report).1.fs.dirs q = false := by
  intro report
  induction report with
  | nil => intro st h; exact h
  | cons proj rest ih =>
    intro st h
    have hpf := @delProject_dirs_false o base q st proj h
    rw [delGo_cons]
    cases hdp : delProject o base st proj with
    | mk st' e =>
      rw [hdp] at hpf
      cases e with
      | none => exact ih st' hpf
      | some e' => exact hpf

theorem tryRemove_self {o : Oracle} {st : DelState} {p : String}
    (hfail : o.removeFails p = false) : (tryRemove o st p).fs.files p = none := by
  unfold tryRemove
  by_cases hf : isFile st.fs p = true
  · simp only [hf, if_true, hfail, Bool.false_eq_true, if_false]
    unfold removeFile
    simp
  · simp only [hf, if_false]
    exact Option.not_isSome_iff_eq_none.mp (by simpa [isFile] using hf)

theorem tryRmtree_self {o : Oracle} {st : DelState} {d : String}
    (hfail : o.rmtreeFails d = false) : (tryRmtree o st d).fs.dirs d = false := by
  unfold tryRmtree
  by_cases hd : st.fs.dirs d = true
  · simp only [hd, if_true, hfail, Bool.false_eq_true, if_false]
    unfold rmtree
    simp
  · simp only [hd, if_false]
    exact Bool.not_eq_true _ ▸ hd

theorem delSessions_file_gone {o : Oracle} {projPath : String} :
    ∀ (sids : List String) (st : DelState) (idx : Option JVal) (s : String),
      s ∈ sids → o.removeFails (pjoin projPath (s ++ ".jsonl")) = false →
      (delSessions o projPath st idx sids).2.2 = none →
      (delSessions o projPath st idx sids).1.fs.files (pjoin projPath (s ++ ".jsonl"))
        = none := by
  intro sids
  induction sids with
  | nil => intro st idx s hs; cases hs
  | cons sid rest ih =>
    intro st idx s hs hfail hok
    rw [delSessions_cons] at hok ⊢
    cases histep : indexStep sid idx with
    | mk idx1 e1 =>
      rw [histep] at hok
      cases e1 with
      | some e => cases hok
      | none =>
        rcases List.mem_cons.mp hs with heq | hmem
        · subst heq
          apply delSessions_files_none
          apply tryRmtree_files_none
          exact tryRemove_self hfail
        · exact ih _ _ s hmem hfail hok

theorem delSessions_dir_gone {o : Oracle} {projPath : String} :
    ∀ (sids : List String) (st : DelState) (idx : Option JVal) (s : String),
      s ∈ sids → o.rmtreeFails (pjoin projPath s) = false →
      (delSessions o projPath st idx sids).2.2 = none →
      (delSessions o projPath st idx sids).1.fs.dirs (pjoin projPath s) = false := by
  intro sids
  induction sids with
  | nil => intro st idx s hs; cases hs
  | cons sid rest ih =>
    intro st idx s hs hfail hok
    rw [delSessions_cons] at hok ⊢
    cases histep : indexStep sid idx with
    | mk idx1 e1 =>
      rw [histep] at hok
      cases e1 with
      | some e => cases hok
      | none =>
        rcases List.mem_cons.mp hs with heq | hmem
        · subst heq
          apply delSessions_dirs_false
          exact tryRmtree_self hfail
        · exact ih _ _ s hmem hfail hok

theorem delProject_ok_parts {o : Oracle} {base : String} {st : DelState}
    {proj : String × List String} (hok : (delProject o base st proj).2 = none) :
    ∃ st1 idx, delSessions o (pjoin base proj.1) st
        (loadIndex st.fs (indexPathOf base proj.1)) proj.2 = (st1, idx, none) := by
  rw [delProject_eq] at hok
  cases hds : delSessions o (pjoin base proj.1) st
      (loadIndex st.fs (indexPathOf base proj.1)) proj.2 with
  | mk st1 r =>
    cases r with
    | mk idx e =>
      cases e with
      | none => exact ⟨st1, idx, rfl⟩
      | some e' =>
        rw [hds] at hok
        cases idx <;> cases hok

theorem delProject_file_gone {o : Oracle} {base : String} {st : DelState}
    {proj : String × List String} {s : String} (hs : s ∈ proj.2)
    (hfail : o.removeFails (jsonlPathOf base proj.1 s) = false)
    (hok : (delProject o base st proj).2 = none) :
    (delProject o base st proj).1.fs.files (jsonlPathOf base proj.1 s) = none := by
  obtain ⟨st1, idx, hds⟩ := delProject_ok_parts hok
  have hgone := @delSessions_file_gone o (pjoin base proj.1) proj.2 st
    (loadIndex st.fs (indexPathOf base proj.1)) s hs hfail (by rw [hds])
  rw [hds] at hgone
  rw [delProject_eq, hds]
  cases idx with
  | none => exact hgone
  | some v =>
    by_cases hw : o.writeFails (indexPathOf base proj.1) = true
    · simp only [hw, if_true]
      exact hgone
    · simp only [hw, if_false]
      show (writeFile st1.fs (indexPathOf base proj.1) (some v)).files
          (jsonlPathOf base proj.1 s) = none
      unfold writeFile
      show (if jsonlPathOf base proj.1 s = indexPathOf base proj.1 then some (some v)
          else st1.fs.files (jsonlPathOf base proj.1 s)) = none
      rw [if_neg (fun hc => indexPathOf_ne_jsonlPath base proj.1 base proj.1 s hc.symm)]
      exact hgone

theorem delProject_dir_gone {o : Oracle} {base : String} {st : DelState}
    {proj : String × List String} {s : String} (hs : s ∈ proj.2)
    (hfail : o.rmtreeFails (companionOf base proj.1 s) = false)
    (hok : (delProject o base st proj).2 = none) :
    (delProject o base st proj).1.fs.dirs (companionOf base proj.1 s) = false := by
  obtain ⟨st1, idx, hds⟩ := delProject_ok_parts hok
  have hgone := @delSessions_dir_gone o (pjoin base proj.1) proj.2 st
    (loadIndex st.fs (indexPathOf base proj.1)) s hs hfail (by rw [hds])
  rw [hds] at hgone
  rw [delProject_eq, hds]
  cases idx with
  | none => exact hgone
  | some v =>
    by_cases hw : o.writeFails (indexPathOf base proj.1) = true
    · simp only [hw, if_true]
      exact hgone
    · simp only [hw, if_false]
      exact hgone

theorem entryKeep_str (sid t : String) : entryKeep sid (.str t) = .error .attributeError := rfl

theorem filterList_mem {sid : String} {es es' : List JVal} (h : filterList sid es = .ok es') :
    ∀ x ∈ es', x ∈ es ∧ entryKeep sid x = .ok true := by
  induction es generalizing es' with
  | nil =>
    have he : es' = [] := by
      have : filterList sid [] = Except.ok ([] : List JVal) := rfl
      rw [this] at h
      exact (Except.ok.inj h).symm
    subst he
    intro x hx
    cases hx
  | cons e rest ih =>
    unfold filterList at h
    cases hek : entryKeep sid e with
    | error err => rw [hek] at h; cases h
    | ok k =>
      rw [hek] at h
      cases hfl : filterList sid rest with
      | error err => rw [hfl] at h; cases h
      | ok tail =>
        rw [hfl] at h
        cases k with
        | true =>
          have he : es' = e :: tail := (Except.ok.inj h).symm
          subst he
          intro x hx
          rcases List.mem_cons.mp hx with hx1 | hx2
          · subst hx1
            exact ⟨List.mem_cons_self _ _, hek⟩
          · obtain ⟨hm, hk⟩ := ih hfl x hx2
            exact ⟨List.mem_cons_of_mem _ hm, hk⟩
        | false =>
          have he : es' = tail := (Except.ok.inj h).symm
          subst he
          intro x hx
          obtain ⟨hm, hk⟩ := ih hfl x hx
          exact ⟨List.mem_cons_of_mem _ hm, hk⟩

theorem filterIndex_result {sid : String} {v v1 : JVal} (h : filterIndex sid v = .ok v1) :
    (∀ x ∈ entriesOf v1, x ∈ entriesOf v) ∧
    (∀ x ∈ entriesOf v1, entryKeep sid x = .ok true) := by
  cases hsub : pySubscript v "entries" with
  | error e => simp [filterIndex, hsub] at h
  | ok ev =>
    cases hit : pyIterate ev with
    | error e => simp [filterIndex, hsub, hit] at h
    | ok es =>
      cases hfl : filterList sid es with
      | error e => simp [filterIndex, hsub, hit, hfl] at h
      | ok es' =>
        cases v with
        | obj kvs =>
          have hv1 : v1 = .obj (setKey kvs "entries" (.arr es')) := by
            simp [filterIndex, hsub, hit, hfl] at h
            exact h.symm
          subst hv1
          have hlk : List.lookup "entries" (setKey kvs "entries" (JVal.arr es'))
              = some (.arr es') := lookup_setKey _ _ _
          have hent : entriesOf (.obj (setKey kvs "entries" (.arr es'))) = es' := by
            show (match List.lookup "entries" (setKey kvs "entries" (JVal.arr es')) with
                | some (.arr es) => es
                | _ => ([] : List JVal)) = es'
            rw [hlk]
          have hev : List.lookup "entries" kvs = some ev := by
            unfold pySubscript at hsub
            have hsub2 : (match List.lookup "entries" kvs with
                | some x => (Except.ok x : Except PyErr JVal)
                | none => Except.error PyErr.keyError) = Except.ok ev := hsub
            cases hlk2 : List.lookup "entries" kvs with
            | none =>
              rw [hlk2] at hsub2
              simp at hsub2
            | some x =>
              rw [hlk2] at hsub2
              rw [Except.ok.inj hsub2]
          constructor
          · intro x hx
            rw [hent] at hx
            obtain ⟨hm, hk⟩ := filterList_mem hfl x hx
            cases ev with
            | arr es2 =>
              have hes : es = es2 := (Except.ok.inj hit).symm
              subst hes
              show x ∈ (match List.lookup "entries" kvs with
                | some (.arr es) => es
                | _ => ([] : List JVal))
              rw [hev]
              exact hm
            | str s2 =>
              exfalso
              have hes : es = s2.data.map fun c => JVal.str ⟨[c]⟩ := (Except.ok.inj hit).symm
              subst hes
              obtain ⟨c, _, hc⟩ := List.mem_map.mp hm
              rw [← hc, entryKeep_str] at hk
              cases hk
            | obj kvs2 =>
              exfalso
              have hes : es = kvs2.map fun kv => JVal.str kv.1 := (Except.ok.inj hit).symm
              subst hes
              obtain ⟨kv, _, hc⟩ := List.mem_map.mp hm
              rw [← hc, entryKeep_str] at hk
              cases hk
            | null => simp [pyIterate] at hit
            | bool b => simp [pyIterate] at hit
            | num n => simp [pyIterate] at hit
          · intro x hx
            rw [hent] at hx
            exact (filterList_mem hfl x hx).2
        | null => simp [pySubscript] at hsub
        | bool b => simp [pySubscript] at hsub
        | num n => simp [pySubscript] at hsub
        | str s => simp [pySubscript] at hsub
        | arr xs => simp [pySubscript] at hsub

theorem entriesOf_of_not_truthy {v : JVal} (h : v.truthy = false) : entriesOf v = [] := by
  cases v with
  | obj kvs =>
    cases kvs with
    | nil => rfl
    | cons kv rest => simp [JVal.truthy] at h
  | null => rfl
  | bool b => rfl
  | num n => rfl
  | str s => rfl
  | arr xs => rfl

theorem entriesOf_of_inTest_false {v : JVal} (h : pyInTest "entries" v = .ok false) :
    entriesOf v = [] := by
  cases v with
  | obj kvs =>
    have h2 : (kvs.any fun kv => kv.1 == "entries") = false := Except.ok.inj h
    have h3 : List.lookup "entries" kvs = none := by
      rw [← Option.not_isSome_iff_eq_none, ← any_key_eq_lookup]
      simp [h2]
    show (match List.lookup "entries" kvs with
        | some (.arr es) => es
        | _ => ([] : List JVal)) = []
    rw [h3]
  | null => rfl
  | bool b => rfl
  | num n => rfl
  | str s => rfl
  | arr xs => rfl

theorem indexStep_noEntry {sid : String} {idx idx' : Option JVal}
    (h : indexStep sid idx = (idx', none)) :
    ∀ v', idx' = some v' → NoEntryFor v' sid := by
  intro v' hv'
  subst hv'
  cases idx with
  | none => simp [indexStep] at h
  | some v =>
    by_cases ht : v.truthy = true
    · cases hin : pyInTest "entries" v with
      | error e => simp [indexStep, ht, hin] at h
      | ok b =>
        cases b with
        | false =>
          simp [indexStep, ht, hin] at h
          subst h
          intro e he
          rw [entriesOf_of_inTest_false hin] at he
          cases he
        | true =>
          cases hfi : filterIndex sid v with
          | error e => simp [indexStep, ht, hin, hfi] at h
          | ok v1 =>
            simp [indexStep, ht, hin, hfi] at h
            subst h
            intro e he
            rw [(filterIndex_result hfi).2 e he]
            intro hc
            cases hc
    · have ht' : v.truthy = false := by
        revert ht
        cases v.truthy <;> simp
      simp [indexStep, ht'] at h
      subst h
      intro e he
      rw [entriesOf_of_not_truthy ht'] at he
      cases he

theorem indexStep_subset {sid : String} {idx idx' : Option JVal} {e : Option PyErr}
    (h : indexStep sid idx = (idx', e)) :
    ∀ v', idx' = some v' → ∃ v, idx = some v ∧ ∀ x ∈ entriesOf v', x ∈ entriesOf v := by
  intro v' hv'
  subst hv'
  cases idx with
  | none => simp [indexStep] at h
  | some v =>
    refine ⟨v, rfl, ?_⟩
    by_cases ht : v.truthy = true
    · cases hin : pyInTest "entries" v with
      | error e2 =>
        simp [indexStep, ht, hin] at h
        rw [← h.1]
        exact fun x hx => hx
      | ok b =>
        cases b with
        | false =>
          simp [indexStep, ht, hin] at h
          rw [← h.1]
          exact fun x hx => hx
        | true =>
          cases hfi : filterIndex sid v with
          | error e2 =>
            simp [indexStep, ht, hin, hfi] at h
            rw [← h.1]
            exact fun x hx => hx
          | ok v1 =>
            simp [indexStep, ht, hin, hfi] at h
            rw [← h.1]
            exact (filterIndex_result hfi).1
    · have ht' : v.truthy = false := by
        revert ht
        cases v.truthy <;> simp
      simp [indexStep, ht'] at h
      rw [← h.1]
      exact fun x hx => hx

theorem delSessions_subset {o : Oracle} {projPath : String} :
    ∀ (sids : List String) (st : DelState) (idx : Option JVal) (v' : JVal),
      (delSessions o projPath st idx sids).2.1 = some v' →
      ∃ v, idx = some v ∧ ∀ x ∈ entriesOf v', x ∈ entriesOf v := by
  intro sids
  induction sids with
  | nil => exact fun st idx v' h => ⟨v', h, fun x hx => hx⟩
  | cons sid rest ih =>
    intro st idx v' h
    rw [delSessions_cons] at h
    cases histep : indexStep sid idx with
    | mk idx1 e1 =>
      rw [histep] at h
      cases e1 with
      | none =>
        obtain ⟨v1, hv1, hsub1⟩ := ih _ idx1 v' h
        obtain ⟨v, hv, hsub⟩ := indexStep_subset histep v1 hv1
        exact ⟨v, hv, fun x hx => hsub x (hsub1 x hx)⟩
      | some e =>
        obtain ⟨v, hv, hsub⟩ := indexStep_subset histep v' h
        exact ⟨v, hv, hsub⟩

theorem delSessions_noEntry {o : Oracle} {projPath : String} :
    ∀ (sids : List String) (st : DelState) (idx : Option JVal) (s : String), s ∈ sids →
      (delSessions o projPath st idx sids).2.2 = none →
      ∀ v', (delSessions o projPath st idx sids).2.1 = some v' → NoEntryFor v' s := by
  intro sids
  induction sids with
  | nil => intro st idx s hs; cases hs
  | cons sid rest ih =>
    intro st idx s hs hok v' hv'
    rw [delSessions_cons] at hok hv'
    cases histep : indexStep sid idx with
    | mk idx1 e1 =>
      rw [histep] at hok hv'
      cases e1 with
      | some e => cases hok
      | none =>
        rcases List.mem_cons.mp hs with heq | hmem
        · subst heq
          obtain ⟨v1, hv1, hsub⟩ := delSessions_subset rest _ idx1 v' hv'
          have hne := indexStep_noEntry histep v1 hv1
          intro x hx
          exact hne x (hsub x hx)
        · exact ih _ idx1 s hmem hok v' hv'

theorem indexStep_none_of {sid : String} {idx idx' : Option JVal} {e : Option PyErr}
    (h : indexStep sid idx = (idx', e)) (h2 : idx' = none) : idx = none := by
  subst h2
  cases idx with
  | none => rfl
  | some v =>
    exfalso
    by_cases ht : v.truthy = true
    · cases hin : pyInTest "entries" v with
      | error e2 => simp [indexStep, ht, hin] at h
      | ok b =>
        cases b with
        | false => simp [indexStep, ht, hin] at h
        | true =>
          cases hfi : filterIndex sid v with
          | error e2 => simp [indexStep, ht, hin, hfi] at h
          | ok v1 => simp [indexStep, ht, hin, hfi] at h
    · have ht' : v.truthy = false := by
        revert ht
        cases v.truthy <;> simp
      simp [indexStep, ht'] at h

theorem delSessions_none_of {o : Oracle} {projPath : String} :
    ∀ (sids : List String) (st : DelState) (idx : Option JVal),
      (delSessions o projPath st idx sids).2.1 = none → idx = none := by
  intro sids
  induction sids with
  | nil => exact fun st idx h => h
  | cons sid rest ih =>
    intro st idx h
    rw [delSessions_cons] at h
    cases histep : indexStep sid idx with
    | mk idx1 e1 =>
      rw [histep] at h
      cases e1 with
      | none => exact indexStep_none_of histep (ih _ idx1 h)
      | some e => exact indexStep_none_of histep h

theorem tryRemove_files_cases (o : Oracle) (st : DelState) (p q : String) :
    (tryRemove o st p).fs.files q = st.fs.files q ∨ (tryRemove o st p).fs.files q = none := by
  rcases tryRemove_fs o st p with h | h <;> rw [h]
  · left; rfl
  · unfold removeFile
    by_cases hq : q = p
    · right; simp [hq]
    · left; simp [hq]

theorem tryRmtree_files_cases (o : Oracle) (st : DelState) (d q : String) :
    (tryRmtree o st d).fs.files q = st.fs.files q ∨ (tryRmtree o st d).fs.files q = none := by
  rcases tryRmtree_fs o st d with h | h <;> rw [h]
  · left; rfl
  · unfold rmtree
    by_cases hq : underDir d q = true
    · right; simp [hq]
    · left; simp [hq]

theorem delSessions_files_cases {o : Oracle} {projPath : String} :
    ∀ (sids : List String) (st : DelState) (idx : Option JVal) (q : String),
      (delSessions o projPath st idx sids).1.fs.files q = st.fs.files q ∨
      (delSessions o projPath st idx sids).1.fs.files q = none := by
  intro sids
  induction sids with
  | nil => intro st idx q; left; rfl
  | cons sid rest ih =>
    intro st idx q
    rw [delSessions_cons]
    cases histep : indexStep sid idx with
    | mk idx1 e1 =>
      have hstep : (tryRmtree o (tryRemove o st (pjoin projPath (sid ++ ".jsonl")))
            (pjoin projPath sid)).fs.files q
          = st.fs.files q ∨
          (tryRmtree o (tryRemove o st (pjoin projPath (sid ++ ".jsonl")))
            (pjoin projPath sid)).fs.files q = none := by
        rcases tryRmtree_files_cases o (tryRemove o st (pjoin projPath (sid ++ ".jsonl")))
            (pjoin projPath sid) q with h1 | h1
        · rw [h1]
          exact tryRemove_files_cases o st _ q
        · right; exact h1
      cases e1 with
      | none =>
        rcases ih (tryRmtree o (tryRemove o st (pjoin projPath (sid ++ ".jsonl")))
            (pjoin projPath sid)) idx1 q with h1 | h1
        · rw [h1]; exact hstep
        · right; exact h1
      | some e => exact hstep

theorem loadIndex_none {fs : FS} {ip : String} (h : loadIndex fs ip = none) :
    fs.files ip = none ∨ fs.files ip = some none := by
  unfold loadIndex at h
  cases hf : fs.files ip with
  | none => left; rfl
  | some c =>
    cases c with
    | none => right; rfl
    | some v => rw [hf] at h; cases h

theorem delProject_index {o : Oracle} {base : String} {st : DelState}
    {proj : String × List String} (hok : (delProject o base st proj).2 = none)
    (hw : o.writeFails (indexPathOf base proj.1) = false) :
    ∀ s ∈ proj.2, ∀ v,
      (delProject o base st proj).1.fs.files (indexPathOf base proj.1) = some (some v) →
      NoEntryFor v s := by
  obtain ⟨st1, idx, hds⟩ := delProject_ok_parts hok
  intro s hs v hv
  rw [delProject_eq, hds] at hv
  cases idx with
  | none =>
    exfalso
    have hidx0 : loadIndex st.fs (indexPathOf base proj.1) = none :=
      delSessions_none_of proj.2 st _ (by rw [hds])
    rcases loadIndex_none hidx0 with h0 | h0
    · have hnone := @delSessions_files_none o (pjoin base proj.1)
        (indexPathOf base proj.1) proj.2 st (loadIndex st.fs (indexPathOf base proj.1)) h0
      rw [hds] at hnone
      rw [hnone] at hv
      cases hv
    · rcases @delSessions_files_cases o (pjoin base proj.1) proj.2 st
          (loadIndex st.fs (indexPathOf base proj.1)) (indexPathOf base proj.1) with hc | hc
      · rw [hds] at hc
        rw [hc, h0] at hv
        cases (Option.some.inj hv)
      · rw [hds] at hc
        rw [hc] at hv
        cases hv
  | some v1 =>
    simp only [hw, Bool.false_eq_true, if_false] at hv
    unfold writeFile at hv
    simp only [if_pos rfl] at hv
    have hvv : v1 = v := Option.some.inj (Option.some.inj hv)
    subst hvv
    exact delSessions_noEntry proj.2 st _ s hs (by rw [hds]) v1 (by rw [hds])

theorem delProject_files_cases {o : Oracle} {base : String} {st : DelState}
    {proj : String × List String} {q : String} (hq : q ≠ indexPathOf base proj.1) :
    (delProject o base st proj).1.fs.files q = st.fs.files q ∨
    (delProject o base st proj).1.fs.files q = none := by
  rw [delProject_eq]
  have hc := @delSessions_files_cases o (pjoin base proj.1) proj.2 st
    (loadIndex st.fs (indexPathOf base proj.1)) q
  cases hds : delSessions o (pjoin base proj.1) st
      (loadIndex st.fs (indexPathOf base proj.1)) proj.2 with
  | mk st1 r =>
    rw [hds] at hc
    cases r with
    | mk idx e =>
      cases idx with
      | none => cases e <;> exact hc
      | some v =>
        cases e with
        | some e' => exact hc
        | none =>
          by_cases hw : o.writeFails (indexPathOf base proj.1) = true
          · simp only [hw, if_true]
            exact hc
          · simp only [hw, if_false]
            show (writeFile st1.fs (indexPathOf base proj.1) (some v)).files q
                = st.fs.files q ∨
              (writeFile st1.fs (indexPathOf base proj.1) (some v)).files q = none
            unfold writeFile
            simp only [hq, if_false]
            exact hc

theorem delGo_files_cases {o : Oracle} {base q : String} :
    ∀ (report : List (String × List String)) (st : DelState),
      (∀ pr ∈ report, q ≠ indexPathOf base pr.1) →
      (delGo o base st report).1.fs.files q = st.fs.files q ∨
      (delGo o base st report).1.fs.files q = none := by
  intro report
  induction report with
  | nil => intro st _; left; rfl
  | cons proj rest ih =>
    intro st hq
    have hpc := @delProject_files_cases o base st proj q (hq proj (List.mem_cons_self _ _))
    rw [delGo_cons]
    cases hdp : delProject o base st proj with
    | mk st' e =>
      rw [hdp] at hpc
      cases e with
      | some e' => exact hpc
      | none =>
        rcases ih st' (fun pr hpr => hq pr (List.mem_cons_of_mem _ hpr)) with h1 | h1
        · rw [h1]
          exact hpc
        · right
          exact h1

theorem delGo_cons_ok {o : Oracle} {base : String} {st : DelState}
    {proj : String × List String} {rest : List (String × List String)}
    (h : (delGo o base st (proj :: rest)).2 = none) :
    ∃ st', delProject o base st proj = (st', none) ∧
      delGo o base st (proj :: rest) = delGo o base st' rest := by
  cases hdp : delProject o base st proj with
  | mk st' e =>
    cases e with
    | none => exact ⟨st', rfl, by rw [delGo_cons, hdp]⟩
    | some e' =>
      exfalso
      rw [delGo_cons, hdp] at h
      cases h

/-- Combined completeness of one delete run, for an arbitrary oracle: every
listed session whose removal does not fail loses its log file, every listed
session whose rmtree does not fail loses its companion directory, and for
every project whose index write does not fail, the index file on disk at the
end of the run carries no entry for any listed session id. Requires that
the run terminated without an uncaught exception and that project names are
unique, as dict keys are. -/
theorem delGo_complete {o : Oracle} {base : String} :
    ∀ (report : List (String × List String)) (st : DelState),
      (delGo o base st report).2 = none →
      (report.map Prod.fst).Nodup →
      ∀ pr ∈ report, ∀ s ∈ pr.2,
        (o.removeFails (jsonlPathOf base pr.1 s) = false →
          (delGo o base st report).1.fs.files (jsonlPathOf base pr.1 s) = none) ∧
        (o.rmtreeFails (companionOf base pr.1 s) = false →
          (delGo o base st report).1.fs.dirs (companionOf base pr.1 s) = false) ∧
        (o.writeFails (indexPathOf base pr.1) = false →
          ∀ v, (delGo o base st report).1.fs.files (indexPathOf base pr.1)
              = some (some v) → NoEntryFor v s) := by
  intro report
  induction report with
  | nil => intro st _ _ pr hpr; cases hpr
  | cons proj rest ih =>
    intro st hok hnodup pr hpr s hs
    obtain ⟨st', hdp, hgo⟩ := delGo_cons_ok hok
    have hok' : (delGo o base st' rest).2 = none := by rw [← hgo]; exact hok
    rw [List.map_cons, List.nodup_cons] at hnodup
    rw [hgo]
    rcases List.mem_cons.mp hpr with heq | hmem
    · subst heq
      refine ⟨?_, ?_, ?_⟩
      · intro hrf
        apply delGo_files_none rest st'
        · intro pr' _
          exact fun hc => indexPathOf_ne_jsonlPath base pr'.1 base pr.1 s hc.symm
        · have hg := delProject_file_gone hs hrf (by rw [hdp])
          rw [hdp] at hg
          exact hg
      · intro hrt
        apply delGo_dirs_false rest st'
        have hg := delProject_dir_gone hs hrt (by rw [hdp])
        rw [hdp] at hg
        exact hg
      · intro hwf v hv
        have hne : ∀ pr' ∈ rest, indexPathOf base pr.1 ≠ indexPathOf base pr'.1 := by
          intro pr' hpr' hc
          exact hnodup.1 (indexPathOf_inj hc ▸ List.mem_map_of_mem Prod.fst hpr')
        rcases delGo_files_cases rest st' hne with hc | hc
        · rw [hc] at hv
          have hidx := delProject_index (by rw [hdp]) hwf s hs v
          rw [hdp] at hidx
          exact hidx hv
        · rw [hc] at hv
          cases hv
    · exact ih st' hok' hnodup.2 pr hmem s hs

/-- C1: deletion completeness. After the deleter runs to completion with
every filesystem operation succeeding, for every project P of the report
and every session id s listed for P, the log file s.jsonl no longer exists
under P, the companion directory s no longer exists under P, and if the
final filesystem still carries a parseable index file for P, that index
contains no entry whose sessionId equals s — the in-memory filtering is
unconditional for listed ids, and the filtered index is what was written
back. Project names are assumed distinct, as they are keys of a JSON
object. -/
theorem c1_deletion_completeness (base : String) (report : List (String × List String))
    (fs0 : FS) (hok : (runDeleter noFailOracle base report fs0).2 = none)
    (hnodup : (report.map Prod.fst).Nodup) :
    ∀ pr ∈ report, ∀ s ∈ pr.2,
      isFile (runDeleter noFailOracle base report fs0).1.fs (jsonlPathOf base pr.1 s)
          = false ∧
      (runDeleter noFailOracle base report fs0).1.fs.dirs (companionOf base pr.1 s)
          = false ∧
      ∀ v, (runDeleter noFailOracle base report fs0).1.fs.files (indexPathOf base pr.1)
          = some (some v) → NoEntryFor v s := by
  intro pr hpr s hs
  obtain ⟨h1, h2, h3⟩ := delGo_complete report _ hok hnodup pr hpr s hs
  refine ⟨?_, h2 rfl, h3 rfl⟩
  unfold isFile
  show ((delGo noFailOracle base { fs := fs0, deleted := 0, errors := [] } report).1.fs.files
      (jsonlPathOf base pr.1 s)).isSome = false
  rw [h1 rfl]
  rfl

theorem c1_witness :
    (isFile (runDeleter noFailOracle "b" [("p", ["s"])]
        (mkFS [("b/p/s.jsonl", none),
          ("b/p/sessions-index.json", some (.obj [("entries", .arr
            [.obj [("sessionId", .str "s")], .obj [("sessionId", .str "t")]])]))]
          ["b/p/s"])).1.fs (jsonlPathOf "b" "p" "s") = false ∧
      (runDeleter noFailOracle "b" [("p", ["s"])]
        (mkFS [("b/p/s.jsonl", none),
          ("b/p/sessions-index.json", some (.obj [("entries", .arr
            [.obj [("sessionId", .str "s")], .obj [("sessionId", .str "t")]])]))]
          ["b/p/s"])).1.fs.dirs (companionOf "b" "p" "s") = false ∧
      ∀ v, (runDeleter noFailOracle "b" [("p", ["s"])]
          (mkFS [("b/p/s.jsonl", none),
            ("b/p/sessions-index.json", some (.obj [("entries", .arr
              [.obj [("sessionId", .str "s")], .obj [("sessionId", .str "t")]])]))]
            ["b/p/s"])).1.fs.files (indexPathOf "b" "p") = some (some v) →
        NoEntryFor v "s") :=
  c1_deletion_completeness "b" [("p", ["s"])]
    (mkFS [("b/p/s.jsonl", none),
      ("b/p/sessions-index.json", some (.obj [("entries", .arr
        [.obj [("sessionId", .str "s")], .obj [("sessionId", .str "t")]])]))]
      ["b/p/s"])
    (by decide) (by decide) ("p", ["s"]) (List.mem_singleton.mpr rfl) "s"
    (List.mem_singleton.mpr rfl)

/-- Number of report positions (project, listed session id) whose log-file
path is exactly p. -/
def jsonlMatches (base : String) (report : List (String × List String)) (p : String) : Nat :=
  (report.map fun pr => (pr.2.filter fun s => jsonlPathOf base pr.1 s == p).length).sum

theorem writeFile_isFile_true {fs : FS} {p : String} {c : Option JVal} {q : String}
    (h : isFile fs q = true) : isFile (writeFile fs p c) q = true := by
  unfold isFile at h ⊢
  simp only [writeFile]
  by_cases hq : q = p <;> simp [hq, h]

theorem tryRmtree_errors_single {fp : String} {st : DelState} {d : String} :
    (tryRmtree (singleRemoveFailOracle fp) st d).errors = st.errors := by
  unfold tryRmtree
  have hr : (singleRemoveFailOracle fp).rmtreeFails d = false := rfl
  rw [hr]
  by_cases hd : st.fs.dirs d = true <;> simp [hd]

theorem tryRemove_errors_single {fp : String} {st : DelState} {p : String}
    (hf : isFile st.fs fp = true) :
    (tryRemove (singleRemoveFailOracle fp) st p).errors
      = st.errors ++ (if p == fp then [DelErr.fileDel p] else []) := by
  unfold tryRemove singleRemoveFailOracle
  by_cases hm : p = fp
  · subst hm
    simp [hf]
  · have hne : (p == fp) = false := beq_false_of_ne hm
    simp only [hne, Bool.false_eq_true, if_false, List.append_nil]
    split_ifs <;> rfl

theorem tryRemove_isFile_single {fp : String} {st : DelState} {p : String}
    (hf : isFile st.fs fp = true) :
    isFile (tryRemove (singleRemoveFailOracle fp) st p).fs fp = true := by
  by_cases hm : p = fp
  · subst hm
    unfold tryRemove
    rw [if_pos hf]
    have hr : (singleRemoveFailOracle p).removeFails p = true := by
      simp [singleRemoveFailOracle]
    rw [if_pos hr]
    exact hf
  · unfold isFile
    rw [tryRemove_files_other fun hc => hm hc.symm]
    exact hf

theorem tryRmtree_isFile {o : Oracle} {st : DelState} {d fp : String}
    (hu : underDir d fp = false) (hf : isFile st.fs fp = true) :
    isFile (tryRmtree o st d).fs fp = true := by
  unfold isFile
  rw [tryRmtree_files_other hu]
  exact hf

theorem delSessions_errors_single {fp projPath : String} :
    ∀ (sids : List String) (st : DelState) (idx : Option JVal),
      isFile st.fs fp = true →
      (∀ s ∈ sids, underDir (pjoin projPath s) fp = false) →
      (delSessions (singleRemoveFailOracle fp) projPath st idx sids).2.2 = none →
      (delSessions (singleRemoveFailOracle fp) projPath st idx sids).1.errors
        = st.errors ++ List.replicate
            (sids.filter fun s => pjoin projPath (s ++ ".jsonl") == fp).length
            (DelErr.fileDel fp) ∧
      isFile (delSessions (singleRemoveFailOracle fp) projPath st idx sids).1.fs fp
        = true := by
  intro sids
  induction sids with
  | nil => intro st idx hf _ _; exact ⟨by simp [delSessions], hf⟩
  | cons sid rest ih =>
    intro st idx hf hcomp hok
    have hf1 : isFile (tryRemove (singleRemoveFailOracle fp) st
        (pjoin projPath (sid ++ ".jsonl"))).fs fp = true := tryRemove_isFile_single hf
    have hf2 : isFile (tryRmtree (singleRemoveFailOracle fp)
        (tryRemove (singleRemoveFailOracle fp) st (pjoin projPath (sid ++ ".jsonl")))
        (pjoin projPath sid)).fs fp = true :=
      tryRmtree_isFile (hcomp sid (List.mem_cons_self _ _)) hf1
    have herr2 : (tryRmtree (singleRemoveFailOracle fp)
        (tryRemove (singleRemoveFailOracle fp) st (pjoin projPath (sid ++ ".jsonl")))
        (pjoin projPath sid)).errors
        = st.errors ++ (if pjoin projPath (sid ++ ".jsonl") == fp
            then [DelErr.fileDel (pjoin projPath (sid ++ ".jsonl"))] else []) := by
      rw [tryRmtree_errors_single, tryRemove_errors_single hf]
    cases histep : indexStep sid idx with
    | mk idx1 e1 =>
      cases e1 with
      | some e =>
        simp only [delSessions_cons, histep] at hok
        simp at hok
      | none =>
        simp only [delSessions_cons, histep] at hok ⊢
        obtain ⟨he, hff⟩ := ih (tryRmtree (singleRemoveFailOracle fp)
            (tryRemove (singleRemoveFailOracle fp) st (pjoin projPath (sid ++ ".jsonl")))
            (pjoin projPath sid)) idx1 hf2
          (fun s hs => hcomp s (List.mem_cons_of_mem _ hs)) hok
        refine ⟨?_, hff⟩
        rw [he, herr2, List.filter_cons]
        by_cases hm : (pjoin projPath (sid ++ ".jsonl") == fp) = true
        · have hmeq : pjoin projPath (sid ++ ".jsonl") = fp := eq_of_beq hm
          simp [hm, hmeq, List.replicate_succ]
        · simp only [hm, Bool.false_eq_true, if_false, List.append_nil]

theorem delProject_errors_single {fp base : String} {st : DelState}
    {proj : String × List String} (hf : isFile st.fs fp = true)
    (hcomp : ∀ s ∈ proj.2, underDir (companionOf base proj.1 s) fp = false)
    (hok : (delProject (singleRemoveFailOracle fp) base st proj).2 = none) :
    (delProject (singleRemoveFailOracle fp) base st proj).1.errors
      = st.errors ++ List.replicate
          ((proj.2.filter fun s => jsonlPathOf base proj.1 s == fp).length)
          (DelErr.fileDel fp) ∧
    isFile (delProject (singleRemoveFailOracle fp) base st proj).1.fs fp = true := by
  obtain ⟨st1, idx, hds⟩ := delProject_ok_parts hok
  obtain ⟨he, hff⟩ := delSessions_errors_single proj.2 st
    (loadIndex st.fs (indexPathOf base proj.1)) hf hcomp (by rw [hds])
  rw [hds] at he hff
  rw [delProject_eq, hds]
  cases idx with
  | none => exact ⟨he, hff⟩
  | some v =>
    have hw : (singleRemoveFailOracle fp).writeFails (indexPathOf base proj.1) = false := rfl
    simp only [hw, Bool.false_eq_true, if_false]
    exact ⟨he, writeFile_isFile_true hff⟩

theorem delGo_errors_single {fp base : String} :
    ∀ (report : List (String × List String)) (st : DelState),
      isFile st.fs fp = true →
      (∀ pr ∈ report, ∀ s ∈ pr.2, underDir (companionOf base pr.1 s) fp = false) →
      (delGo (singleRemoveFailOracle fp) base st report).2 = none →
      (delGo (singleRemoveFailOracle fp) base st report).1.errors
        = st.errors ++ List.replicate (jsonlMatches base report fp) (DelErr.fileDel fp) := by
  intro report
  induction report with
  | nil =>
    intro st _ _ _
    simp [jsonlMatches, delGo]
  | cons proj rest ih =>
    intro st hf hcomp hok
    obtain ⟨st', hdp, hgo⟩ := delGo_cons_ok hok
    obtain ⟨he, hff⟩ := delProject_errors_single hf
      (hcomp proj (List.mem_cons_self _ _)) (by rw [hdp])
    rw [hdp] at he hff
    have hok' : (delGo (singleRemoveFailOracle fp) base st' rest).2 = none := by
      rw [← hgo]
      exact hok
    have hrest := ih st' hff
      (fun pr hpr => hcomp pr (List.mem_cons_of_mem _ hpr)) hok'
    rw [hgo, hrest, he, List.append_assoc, ← List.replicate_add]
    have hcount : jsonlMatches base (proj :: rest) fp
        = (proj.2.filter fun s => jsonlPathOf base proj.1 s == fp).length
          + jsonlMatches base rest fp := by
      unfold jsonlMatches
      rw [List.map_cons, List.sum_cons]
    rw [hcount]

/-- C6: partial failure isolation. Run the deleter with an oracle under
which exactly one os.remove call fails — the one at path fp, which exists,
is listed exactly once across the report, and does not lie inside any
companion directory the run removes. The run still processes every session
id of every project: every other listed log file is gone, every listed
companion directory is gone, every project's rewritten index carries no
entry for any of its listed ids (including the failing one), and the final
error list is exactly the one entry recording the failed deletion. -/
theorem c6_partial_failure_isolation (base : String)
    (report : List (String × List String)) (fs0 : FS) (fp : String)
    (hfile : isFile fs0 fp = true)
    (hcount : jsonlMatches base report fp = 1)
    (hcomp : ∀ pr ∈ report, ∀ s ∈ pr.2, underDir (companionOf base pr.1 s) fp = false)
    (hok : (runDeleter (singleRemoveFailOracle fp) base report fs0).2 = none)
    (hnodup : (report.map Prod.fst).Nodup) :
    (runDeleter (singleRemoveFailOracle fp) base report fs0).1.errors
        = [DelErr.fileDel fp] ∧
    ∀ pr ∈ report, ∀ s ∈ pr.2,
      (jsonlPathOf base pr.1 s ≠ fp →
        (runDeleter (singleRemoveFailOracle fp) base report fs0).1.fs.files
          (jsonlPathOf base pr.1 s) = none) ∧
      (runDeleter (singleRemoveFailOracle fp) base report fs0).1.fs.dirs
          (companionOf base pr.1 s) = false ∧
      ∀ v, (runDeleter (singleRemoveFailOracle fp) base report fs0).1.fs.files
          (indexPathOf base pr.1) = some (some v) → NoEntryFor v s := by
  constructor
  · have hgo := delGo_errors_single report
      { fs := fs0, deleted := 0, errors := [] } hfile hcomp hok
    show (delGo (singleRemoveFailOracle fp) base
        { fs := fs0, deleted := 0, errors := [] } report).1.errors = [DelErr.fileDel fp]
    rw [hgo, hcount]
    rfl
  · intro pr hpr s hs
    obtain ⟨h1, h2, h3⟩ := delGo_complete report _ hok hnodup pr hpr s hs
    refine ⟨?_, h2 rfl, h3 rfl⟩
    intro hne
    exact h1 (beq_false_of_ne hne)

/-- Two directory entries listing the same project directory: same name,
same isdir bit, and the same files up to the order os.listdir happens to
return them in. -/
def EntryEquiv (e e' : DirEntry) : Prop :=
  e.name = e'.name ∧ e.isDir = e'.isDir ∧ e.files.Perm e'.files

/-- Two base listings of the same unmodified directory tree: one is a
permutation of a listing pointwise equivalent to the other. Both the base
listing order and each project's own listing order may differ between the
two runs; nothing else does. -/
def TreeEquiv (t t' : List DirEntry) : Prop :=
  ∃ u, t.Perm u ∧ List.Forall₂ EntryEquiv u t'

/-- Agreement of two report rows up to the order of session_ids. -/
def ResAgree (a b : String × ProjectResult) : Prop :=
  a.1 = b.1 ∧ a.2.total = b.2.total ∧ a.2.wasteful = b.2.wasteful ∧
    a.2.session_ids.Perm b.2.session_ids

/-- What one listed session file contributes to the wasteful list. -/
def pickWasteful (f : SessionFile) : Option String :=
  if f.readable then
    match classifyLines f.lines with
    | .ok false => some (sessionIdOf f.name)
    | _ => none
  else none

/-- No readable file of the list raises an uncaught exception. -/
def filesOk (l : List SessionFile) : Prop :=
  ∀ f ∈ l, f.readable = true → ∀ e : PyErr, classifyLines f.lines ≠ .error e

/-- Python string comparison as a proposition, for the sort lemmas. -/
def strLeP (a b : String) : Prop := strLe a b = true

theorem charListLe_cons_elim {x y : Char} {xs ys : List Char}
    (h : charListLe (x :: xs) (y :: ys) = true) :
    x.toNat < y.toNat ∨ (x.toNat = y.toNat ∧ charListLe xs ys = true) := by
  unfold charListLe at h
  by_cases hxy : x.toNat < y.toNat
  · exact Or.inl hxy
  · rw [if_neg hxy] at h
    by_cases hyx : y.toNat < x.toNat
    · rw [if_pos hyx] at h
      exact Bool.noConfusion h
    · rw [if_neg hyx] at h
      exact Or.inr ⟨by omega, h⟩

theorem charListLe_cons_lt {x y : Char} (xs ys : List Char) (h : x.toNat < y.toNat) :
    charListLe (x :: xs) (y :: ys) = true := by
  unfold charListLe
  rw [if_pos h]

theorem charListLe_cons_eq {x y : Char} {xs ys : List Char} (h : x.toNat = y.toNat)
    (h2 : charListLe xs ys = true) : charListLe (x :: xs) (y :: ys) = true := by
  unfold charListLe
  rw [if_neg (by omega), if_neg (by omega)]
  exact h2

theorem charListLe_trans : ∀ (a b c : List Char), charListLe a b = true →
    charListLe b c = true → charListLe a c = true
  | [], _, _, _, _ => rfl
  | _ :: _, [], _, h, _ => Bool.noConfusion h
  | _ :: _, _ :: _, [], _, h => Bool.noConfusion h
  | x :: xs, y :: ys, z :: zs, h1, h2 => by
    rcases charListLe_cons_elim h1 with hlt1 | ⟨heq1, hr1⟩ <;>
      rcases charListLe_cons_elim h2 with hlt2 | ⟨heq2, hr2⟩
    · exact charListLe_cons_lt xs zs (Nat.lt_trans hlt1 hlt2)
    · exact charListLe_cons_lt xs zs (by omega)
    · exact charListLe_cons_lt xs zs (by omega)
    · exact charListLe_cons_eq (heq1.trans heq2) (charListLe_trans xs ys zs hr1 hr2)

theorem charListLe_total : ∀ (a b : List Char),
    charListLe a b = true ∨ charListLe b a = true
  | [], _ => Or.inl rfl
  | _ :: _, [] => Or.inr rfl
  | x :: xs, y :: ys => by
    rcases Nat.lt_trichotomy x.toNat y.toNat with h | h | h
    · exact Or.inl (charListLe_cons_lt xs ys h)
    · rcases charListLe_total xs ys with h2 | h2
      · exact Or.inl (charListLe_cons_eq h h2)
      · exact Or.inr (charListLe_cons_eq h.symm h2)
    · exact Or.inr (charListLe_cons_lt ys xs h)

theorem charListLe_antisymm : ∀ (a b : List Char), charListLe a b = true →
    charListLe b a = true → a = b
  | [], [], _, _ => rfl
  | [], _ :: _, _, h => Bool.noConfusion h
  | _ :: _, [], h, _ => Bool.noConfusion h
  | x :: xs, y :: ys, h1, h2 => by
    rcases charListLe_cons_elim h1 with hlt1 | ⟨heq1, hr1⟩
    · rcases charListLe_cons_elim h2 with hlt2 | ⟨heq2, _⟩
      · exact absurd hlt2 (by omega)
      · exact absurd hlt1 (by omega)
    · rcases charListLe_cons_elim h2 with hlt2 | ⟨_, hr2⟩
      · exact absurd hlt2 (by omega)
      · have hxy : x = y := by
          have hc := congrArg Char.ofNat heq1
          rwa [Char.ofNat_toNat, Char.ofNat_toNat] at hc
        rw [hxy, charListLe_antisymm xs ys hr1 hr2]

theorem strLe_antisymm {a b : String} (h1 : strLe a b = true) (h2 : strLe b a = true) :
    a = b :=
  String.ext (charListLe_antisymm a.data b.data h1 h2)

instance : IsTotal DirEntry nameLe :=
  ⟨fun a b => charListLe_total a.name.data b.name.data⟩

instance : IsTrans DirEntry nameLe :=
  ⟨fun a b c h1 h2 => charListLe_trans a.name.data b.name.data c.name.data h1 h2⟩

instance : IsAntisymm String strLeP := ⟨fun _ _ h1 h2 => strLe_antisymm h1 h2⟩

theorem sorted_names {l : List DirEntry} (h : List.Sorted nameLe l) :
    List.Sorted strLeP (l.map DirEntry.name) :=
  List.Pairwise.map DirEntry.name (fun _ _ hab => hab) h

theorem forall2_names {u t' : List DirEntry} (h : List.Forall₂ EntryEquiv u t') :
    u.map DirEntry.name = t'.map DirEntry.name := by
  induction h with
  | nil => rfl
  | cons he _ ih => simp only [List.map_cons, he.1, ih]

theorem forall2_exists_left {α β : Type} {R : α → β → Prop} :
    ∀ {l1 : List α} {l2 : List β}, List.Forall₂ R l1 l2 → ∀ b ∈ l2, ∃ a ∈ l1, R a b := by
  intro l1 l2 h
  induction h with
  | nil => intro b hb; cases hb
  | cons hR _ ih =>
    intro b hb
    rcases List.mem_cons.mp hb with rfl | hb2
    · exact ⟨_, List.mem_cons_self _ _, hR⟩
    · obtain ⟨a, ha, har⟩ := ih b hb2
      exact ⟨a, List.mem_cons_of_mem _ ha, har⟩

theorem align_of_names : ∀ (l1 l2 : List DirEntry),
    l1.map DirEntry.name = l2.map DirEntry.name →
    (l1.map DirEntry.name).Nodup →
    (∀ b ∈ l2, ∃ a ∈ l1, EntryEquiv a b) →
    List.Forall₂ EntryEquiv l1 l2
  | [], [], _, _, _ => List.Forall₂.nil
  | [], _ :: _, h, _, _ => by simp at h
  | _ :: _, [], h, _, _ => by simp at h
  | a :: A, b :: B, h, hnd, hcross => by
    simp only [List.map_cons] at h hnd
    have hname : a.name = b.name := (List.cons.inj h).1
    have htail : A.map DirEntry.name = B.map DirEntry.name := (List.cons.inj h).2
    have hnotmem : a.name ∉ A.map DirEntry.name := (List.nodup_cons.mp hnd).1
    have hnd2 : (A.map DirEntry.name).Nodup := (List.nodup_cons.mp hnd).2
    obtain ⟨a0, ha0, hE⟩ := hcross b (List.mem_cons_self _ _)
    have ha0a : a0 = a := by
      rcases List.mem_cons.mp ha0 with h0 | hmem
      · exact h0
      · exfalso
        have hx : a0.name ∈ A.map DirEntry.name := List.mem_map_of_mem _ hmem
        rw [hE.1, ← hname] at hx
        exact hnotmem hx
    have hcross2 : ∀ b2 ∈ B, ∃ a2 ∈ A, EntryEquiv a2 b2 := by
      intro b2 hb2
      obtain ⟨a1, ha1, hE1⟩ := hcross b2 (List.mem_cons_of_mem _ hb2)
      rcases List.mem_cons.mp ha1 with h1 | hmem
      · exfalso
        have hbn : b2.name ∈ B.map DirEntry.name := List.mem_map_of_mem _ hb2
        rw [← htail] at hbn
        rw [h1] at hE1
        rw [← hE1.1] at hbn
        exact hnotmem hbn
      · exact ⟨a1, hmem, hE1⟩
    exact List.Forall₂.cons (ha0a ▸ hE) (align_of_names A B htail hnd2 hcross2)

theorem sorted_align {t t' : List DirEntry} (heq : TreeEquiv t t')
    (hnodup : (t.map DirEntry.name).Nodup) :
    List.Forall₂ EntryEquiv (sortByName t) (sortByName t') := by
  obtain ⟨u, hperm, hfa⟩ := heq
  have hA : (sortByName t).Perm t := List.perm_insertionSort nameLe t
  have hB : (sortByName t').Perm t' := List.perm_insertionSort nameLe t'
  have hsortA : List.Sorted nameLe (sortByName t) := List.sorted_insertionSort nameLe t
  have hsortB : List.Sorted nameLe (sortByName t') := List.sorted_insertionSort nameLe t'
  have p1 : (List.map DirEntry.name (sortByName t)).Perm (List.map DirEntry.name u) :=
    (hA.map DirEntry.name).trans (hperm.map DirEntry.name)
  have p3 : List.map DirEntry.name u = List.map DirEntry.name t' := forall2_names hfa
  have p4 : (List.map DirEntry.name t').Perm
      (List.map DirEntry.name (sortByName t')) := (hB.map DirEntry.name).symm
  have hpermN : (List.map DirEntry.name (sortByName t)).Perm
      (List.map DirEntry.name (sortByName t')) := by
    rw [← p3] at p4
    exact p1.trans p4
  have hnames : List.map DirEntry.name (sortByName t)
      = List.map DirEntry.name (sortByName t') :=
    List.eq_of_perm_of_sorted hpermN (sorted_names hsortA) (sorted_names hsortB)
  have hndA : (List.map DirEntry.name (sortByName t)).Nodup :=
    ((hA.map DirEntry.name).symm).nodup hnodup
  have hcross : ∀ b ∈ sortByName t', ∃ a ∈ sortByName t, EntryEquiv a b := by
    intro b hb
    obtain ⟨a, hau, hE⟩ := forall2_exists_left hfa b (hB.subset hb)
    exact ⟨a, hA.symm.subset (hperm.symm.subset hau), hE⟩
  exact align_of_names (sortByName t) (sortByName t') hnames hndA hcross

theorem processFiles_eq_filterMap : ∀ {l : List SessionFile} {ids : List String},
    processFiles l = .ok ids → ids = l.filterMap pickWasteful := by
  intro l
  induction l with
  | nil =>
    intro ids h
    simp only [processFiles] at h
    cases h
    rfl
  | cons f rest ih =>
    intro ids h
    by_cases hr : f.readable = true
    · cases hcl : classifyLines f.lines with
      | error e => simp [processFiles, hr, hcl] at h
      | ok b =>
        cases b with
        | true =>
          simp only [processFiles, hr, Bool.not_true, Bool.false_eq_true, if_false,
            hcl] at h
          have hpick : pickWasteful f = none := by simp [pickWasteful, hr, hcl]
          rw [List.filterMap_cons, hpick]
          exact ih h
        | false =>
          cases hpf : processFiles rest with
          | error e => simp [processFiles, hr, hcl, hpf] at h
          | ok ids0 =>
            simp only [processFiles, hr, Bool.not_true, Bool.false_eq_true, if_false,
              hcl, hpf, Except.ok.injEq] at h
            have hpick : pickWasteful f = some (sessionIdOf f.name) := by
              simp [pickWasteful, hr, hcl]
            rw [List.filterMap_cons, hpick, ← h, ih hpf]
    · have hrf : f.readable = false := by revert hr; cases f.readable <;> simp
      simp only [processFiles, hrf, Bool.not_false, if_true] at h
      have hpick : pickWasteful f = none := by simp [pickWasteful, hrf]
      rw [List.filterMap_cons, hpick]
      exact ih h

theorem filesOk_of_ok : ∀ {l : List SessionFile} {ids : List String},
    processFiles l = .ok ids → filesOk l := by
  intro l
  induction l with
  | nil => intro ids _ f hf; cases hf
  | cons f rest ih =>
    intro ids h g hg hgr e hcl
    rcases List.mem_cons.mp hg with rfl | hmem
    · simp [processFiles, hgr, hcl] at h
    · by_cases hfr : f.readable = true
      · cases hcf : classifyLines f.lines with
        | error e2 => simp [processFiles, hfr, hcf] at h
        | ok b =>
          cases b with
          | true =>
            simp only [processFiles, hfr, Bool.not_true, Bool.false_eq_true, if_false,
              hcf] at h
            exact ih h g hmem hgr e hcl
          | false =>
            cases hpf : processFiles rest with
            | error e2 => simp [processFiles, hfr, hcf, hpf] at h
            | ok ids0 => exact ih hpf g hmem hgr e hcl
      · have hrf : f.readable = false := by revert hfr; cases f.readable <;> simp
        simp only [processFiles, hrf, Bool.not_false, if_true] at h
        exact ih h g hmem hgr e hcl

theorem processFiles_ok_of_filesOk : ∀ {l : List SessionFile}, filesOk l →
    ∃ ids, processFiles l = .ok ids := by
  intro l
  induction l with
  | nil => intro _; exact ⟨[], rfl⟩
  | cons f rest ih =>
    intro h
    have htail : filesOk rest := fun g hg => h g (List.mem_cons_of_mem _ hg)
    obtain ⟨ids0, h0⟩ := ih htail
    by_cases hfr : f.readable = true
    · cases hcf : classifyLines f.lines with
      | error e => exact absurd hcf (h f (List.mem_cons_self _ _) hfr e)
      | ok b =>
        cases b with
        | true => exact ⟨ids0, by simp [processFiles, hfr, hcf, h0]⟩
        | false =>
          exact ⟨sessionIdOf f.name :: ids0, by simp [processFiles, hfr, hcf, h0]⟩
    · have hrf : f.readable = false := by revert hfr; cases f.readable <;> simp
      exact ⟨ids0, by simp [processFiles, hrf, h0]⟩

theorem filesOk_perm {l l' : List SessionFile} (hp : l.Perm l') (h : filesOk l) :
    filesOk l' :=
  fun f hf => h f (hp.symm.subset hf)

theorem processProject_eq_of (fs : List SessionFile) {jl : List SessionFile}
    (hjl : List.filter (fun f => pyEndsWith f.name ".jsonl") fs = jl) :
    processProject fs
      = if jl.isEmpty then .ok none
        else match processFiles jl with
          | .error e => .error e
          | .ok ids => .ok (if ids.isEmpty then none
              else some ⟨jl.length, ids.length, ids⟩) := by
  simp only [processProject, hjl]

theorem processProject_perm {fs fs' : List SessionFile} (hp : fs.Perm fs')
    {o : Option ProjectResult} (h : processProject fs = .ok o) :
    ∃ o', processProject fs' = .ok o' ∧
      ((o = none ∧ o' = none) ∨ ∃ pr pr', o = some pr ∧ o' = some pr' ∧
        pr.total = pr'.total ∧ pr.wasteful = pr'.wasteful ∧
        pr.session_ids.Perm pr'.session_ids) := by
  have hjp : (List.filter (fun f => pyEndsWith f.name ".jsonl") fs).Perm
      (List.filter (fun f => pyEndsWith f.name ".jsonl") fs') := hp.filter _
  cases hjl : List.filter (fun f => pyEndsWith f.name ".jsonl") fs with
  | nil =>
    rw [hjl] at hjp
    have hjl2 : List.filter (fun f => pyEndsWith f.name ".jsonl") fs' = [] :=
      hjp.symm.eq_nil
    rw [processProject_eq_of fs hjl] at h
    simp only [List.isEmpty_nil, if_true] at h
    injection h with h1
    exact ⟨none, by rw [processProject_eq_of fs' hjl2]; rfl, Or.inl ⟨h1.symm, rfl⟩⟩
  | cons jf jrest =>
    rw [hjl] at hjp
    cases hjl2 : List.filter (fun f => pyEndsWith f.name ".jsonl") fs' with
    | nil =>
      rw [hjl2] at hjp
      have hlen := hjp.length_eq
      simp at hlen
    | cons jf2 jrest2 =>
      rw [hjl2] at hjp
      rw [processProject_eq_of fs hjl] at h
      simp only [List.isEmpty_cons, Bool.false_eq_true, if_false] at h
      cases hpfA : processFiles (jf :: jrest) with
      | error e =>
        simp only [hpfA] at h
        exact Except.noConfusion h
      | ok ids =>
        simp only [hpfA, Except.ok.injEq] at h
        have hokA : filesOk (jf :: jrest) := filesOk_of_ok hpfA
        obtain ⟨ids2, hpfB⟩ := processFiles_ok_of_filesOk (filesOk_perm hjp hokA)
        have hidsA : ids = (jf :: jrest).filterMap pickWasteful :=
          processFiles_eq_filterMap hpfA
        have hidsB : ids2 = (jf2 :: jrest2).filterMap pickWasteful :=
          processFiles_eq_filterMap hpfB
        have hidp : ids.Perm ids2 := by
          rw [hidsA, hidsB]
          exact hjp.filterMap _
        rw [processProject_eq_of fs' hjl2]
        simp only [List.isEmpty_cons, Bool.false_eq_true, if_false, hpfB]
        cases hie : ids with
        | nil =>
          have hie2 : ids2 = [] := by
            rw [hie] at hidp
            exact hidp.symm.eq_nil
          refine ⟨none, ?_, Or.inl ⟨?_, rfl⟩⟩
          · rw [hie2]
            rfl
          · rw [← h, hie]
            rfl
        | cons i0 irest =>
          cases hie2 : ids2 with
          | nil =>
            rw [hie, hie2] at hidp
            have hlen := hidp.length_eq
            simp at hlen
          | cons i02 irest2 =>
            refine ⟨some ⟨(jf2 :: jrest2).length, ids2.length, ids2⟩, ?_,
              Or.inr ⟨⟨(jf :: jrest).length, ids.length, ids⟩,
                ⟨(jf2 :: jrest2).length, ids2.length, ids2⟩, ?_, rfl,
                hjp.length_eq, hidp.length_eq, hidp⟩⟩
            · rw [hie2]
              rfl
            · rw [← h, hie]
              rfl

theorem scanGo_equiv : ∀ {A B : List DirEntry}, List.Forall₂ EntryEquiv A B →
    ∀ {r : List (String × ProjectResult)}, scanGo A = .ok r →
    ∃ r', scanGo B = .ok r' ∧ List.Forall₂ ResAgree r r' := by
  intro A B hAB
  induction hAB with
  | nil =>
    intro r h
    simp only [scanGo, Except.ok.injEq] at h
    exact ⟨[], rfl, by rw [← h]; exact List.Forall₂.nil⟩
  | @cons a b A2 B2 he htail ih =>
    intro r h
    obtain ⟨hname, hdir, hfiles⟩ := he
    by_cases hd : a.isDir = true
    · have hbd : b.isDir = true := by rw [← hdir]; exact hd
      cases hppA : processProject a.files with
      | error e => simp [scanGo, hd, hppA] at h
      | ok o =>
        obtain ⟨o', hppB, hrel⟩ := processProject_perm hfiles hppA
        rcases hrel with ⟨ho, ho2⟩ | ⟨pr, pr2, ho, ho2, htot, hwas, hperm⟩
        · subst ho
          subst ho2
          have hstep : scanGo (a :: A2) = scanGo A2 := by simp [scanGo, hd, hppA]
          rw [hstep] at h
          obtain ⟨r', hr', hfa⟩ := ih h
          refine ⟨r', ?_, hfa⟩
          have hstep2 : scanGo (b :: B2) = scanGo B2 := by simp [scanGo, hbd, hppB]
          rw [hstep2]
          exact hr'
        · subst ho
          subst ho2
          cases hgoA : scanGo A2 with
          | error e => simp [scanGo, hd, hppA, hgoA] at h
          | ok acc =>
            have hstep : scanGo (a :: A2) = .ok ((a.name, pr) :: acc) := by
              simp [scanGo, hd, hppA, hgoA]
            rw [hstep] at h
            injection h with h1
            obtain ⟨acc2, hacc2, hfa⟩ := ih hgoA
            refine ⟨(b.name, pr2) :: acc2, ?_, ?_⟩
            · simp [scanGo, hbd, hppB, hacc2]
            · rw [← h1]
              exact List.Forall₂.cons ⟨hname, htot, hwas, hperm⟩ hfa
    · have hda : a.isDir = false := by revert hd; cases a.isDir <;> simp
      have hdb : b.isDir = false := by rw [← hdir]; exact hda
      have hstep : scanGo (a :: A2) = scanGo A2 := by simp [scanGo, hda]
      rw [hstep] at h
      obtain ⟨r', hr', hfa⟩ := ih h
      refine ⟨r', ?_, hfa⟩
      have hstep2 : scanGo (b :: B2) = scanGo B2 := by simp [scanGo, hdb]
      rw [hstep2]
      exact hr'

/-- C5 counterexample: the classifier's printed report is not independent
of the order in which os.listdir returns a project's files. scan.py
line 13 sorts the project directories but line 18 does not sort
jsonl_files, so the order of session_ids — and hence the printed bytes —
follows the listing order: the same project containing the same two empty
(hence wasteful) files a.jsonl and b.jsonl prints session_ids
["a","b"] under one listing order and ["b","a"] under the other. -/
theorem c5_counterexample :
    printedScan (scanMain true [DirEntry.mk "p" true
        [SessionFile.mk "a.jsonl" true [], SessionFile.mk "b.jsonl" true []]])
      ≠ printedScan (scanMain true [DirEntry.mk "p" true
        [SessionFile.mk "b.jsonl" true [], SessionFile.mk "a.jsonl" true []]]) := by
  decide

/-- C5 (amended): re-running the classifier against an unmodified
directory tree yields the same report up to the order of ids inside each
session_ids list. For any two listings of the same tree (TreeEquiv: same
projects with the same files, in arbitrary listing orders) with distinct
project names, two successful runs produce reports with identical project
sequences — same names in the same (sorted) order — and, per project,
identical total and wasteful counts and session_ids lists that are
permutations of each other. Byte-identical output is guaranteed only when
the per-project file listing order happens to be the same in both runs. -/
theorem c5_idempotence_amended (t t' : List DirEntry)
    (r r' : List (String × ProjectResult)) (heq : TreeEquiv t t')
    (hnodup : (t.map DirEntry.name).Nodup)
    (h : scanTree t = .ok r) (h' : scanTree t' = .ok r') :
    List.Forall₂ ResAgree r r' := by
  have halign := sorted_align heq hnodup
  unfold scanTree at h h'
  obtain ⟨r2, hr2, hfa⟩ := scanGo_equiv halign h
  rw [h'] at hr2
  injection hr2 with h1
  rw [← h1] at hfa
  exact hfa

theorem c5_witness : List.Forall₂ ResAgree
    [("p", ProjectResult.mk 2 2 ["a", "b"])]
    [("p", ProjectResult.mk 2 2 ["b", "a"])] :=
  c5_idempotence_amended
    [DirEntry.mk "p" true [SessionFile.mk "a.jsonl" true [],
      SessionFile.mk "b.jsonl" true []]]
    [DirEntry.mk "p" true [SessionFile.mk "b.jsonl" true [],
      SessionFile.mk "a.jsonl" true []]]
    [("p", ProjectResult.mk 2 2 ["a", "b"])]
    [("p", ProjectResult.mk 2 2 ["b", "a"])]
    ⟨[DirEntry.mk "p" true [SessionFile.mk "a.jsonl" true [],
        SessionFile.mk "b.jsonl" true []]],
      List.Perm.refl _,
      List.Forall₂.cons ⟨rfl, rfl, List.Perm.swap _ _ _⟩ List.Forall₂.nil⟩
    (by decide) (by decide) (by decide)

theorem c6_witness :
    (runDeleter (singleRemoveFailOracle "b/p/s1.jsonl") "b" [("p", ["s1", "s2"])]
        (mkFS [("b/p/s1.jsonl", none), ("b/p/s2.jsonl", none)] ["b/p/s2"])).1.errors
        = [DelErr.fileDel "b/p/s1.jsonl"] ∧
    ∀ pr ∈ [("p", ["s1", "s2"])], ∀ s ∈ pr.2,
      (jsonlPathOf "b" pr.1 s ≠ "b/p/s1.jsonl" →
        (runDeleter (singleRemoveFailOracle "b/p/s1.jsonl") "b" [("p", ["s1", "s2"])]
          (mkFS [("b/p/s1.jsonl", none), ("b/p/s2.jsonl", none)] ["b/p/s2"])).1.fs.files
          (jsonlPathOf "b" pr.1 s) = none) ∧
      (runDeleter (singleRemoveFailOracle "b/p/s1.jsonl") "b" [("p", ["s1", "s2"])]
        (mkFS [("b/p/s1.jsonl", none), ("b/p/s2.jsonl", none)] ["b/p/s2"])).1.fs.dirs
          (companionOf "b" pr.1 s) = false ∧
      ∀ v, (runDeleter (singleRemoveFailOracle "b/p/s1.jsonl") "b" [("p", ["s1", "s2"])]
          (mkFS [("b/p/s1.jsonl", none), ("b/p/s2.jsonl", none)] ["b/p/s2"])).1.fs.files
          (indexPathOf "b" pr.1) = some (some v) → NoEntryFor v s :=
  c6_partial_failure_isolation "b" [("p", ["s1", "s2"])]
    (mkFS [("b/p/s1.jsonl", none), ("b/p/s2.jsonl", none)] ["b/p/s2"])
    "b/p/s1.jsonl" (by decide) (by decide) (by decide) (by decide) (by decide)

end CleanConv
